import Mathlib

/-!
Shallow embedding of `anyseq/reduce.go` from the `anydiff` repository.

A `Batch` packs the data of several variable-length sequences at one
timestep into a single flat vector together with a presence mask.
`Batch.Reduce` compacts a batch to a sub-mask, `Batch.Expand` re-inflates
it to a super-mask with zero-filled gaps, the sequence-level `Reduce`
applies the compaction per timestep (truncating once a timestep becomes
fully empty) and `Prune` drops the slots that are absent at timestep 0
from every mask.

Go panics (explicit `panic` calls, integer division by zero, index and
slice range violations) are modelled by the `Except VecErr` monad; numeric
vectors (`anyvec.Vector`) are modelled as `List Int`, with
`Slice`/`Concat`/`MakeVector` as bounds-checked sublist extraction, list
concatenation and `List.replicate _ 0`.
-/

namespace Anyseq

/-- Error outcomes of the Go code: an explicit panic with its message,
integer division by zero, an index out of range, or a slice with
out-of-range bounds. -/
inductive VecErr where
  | panicked (msg : String)
  | divisionByZero
  | indexOutOfRange
  | sliceOutOfRange
deriving DecidableEq, Repr

/-- Modelled from the spec: the `Batch` structure (declared in the
repository outside `src/`): a flat packed numeric vector plus an ordered
presence mask, one boolean per logical sequence slot. -/
structure Batch where
  Packed : List Int
  Present : List Bool
deriving DecidableEq, Repr

instance : Inhabited Batch := ⟨⟨[], []⟩⟩

/-- Modelled from the spec: `Batch.NumPresent` (declared in the repository
outside `src/`) is `count(Present, true)`: the number of present slots. -/
def Batch.NumPresent (b : Batch) : Nat := b.Present.count true

/-- `anyvec` `Slice(start, stop)`: Go sublist `v[start:stop]`, which
panics unless `0 <= start <= stop <= len(v)`. -/
def sliceV (v : List Int) (start stop : Nat) : Except VecErr (List Int) :=
  if start ≤ stop ∧ stop ≤ v.length then .ok ((v.drop start).take (stop - start))
  else .error .sliceOutOfRange

/-- The sublist of `v` of length `len` starting at `start` (what a
successful `Slice(start, start+len)` returns). -/
def seg (v : List Int) (start len : Nat) : List Int := (v.drop start).take len

/-- Mutable loop state of `Batch.Reduce` / `Batch.Expand`: the collected
chunks and the `chunkStart` / `chunkSize` counters. -/
structure RState where
  chunks : List (List Int)
  chunkStart : Nat
  chunkSize : Nat
deriving DecidableEq, Repr

/-- The `for i, pres := range present` loop of `Batch.Reduce`
(src/anyseq/reduce.go lines 21-35), iterating over the remaining mask
entries `ms` with `i` the index of the first one. -/
def reduceLoop (b : Batch) (inc : Nat) : List Bool → Nat → RState → Except VecErr RState
  | [], _, st => .ok st
  | p :: rest, i, st =>
    match b.Present.get? i with
    | none => .error .indexOutOfRange
    | some bp =>
      if p then
        if bp then
          reduceLoop b inc rest (i + 1) ⟨st.chunks, st.chunkStart, st.chunkSize + inc⟩
        else .error (.panicked "cannot re-add sequences")
      else if bp then
        if 0 < st.chunkSize then
          match sliceV b.Packed st.chunkStart (st.chunkStart + st.chunkSize) with
          | .error e => .error e
          | .ok s =>
            reduceLoop b inc rest (i + 1) ⟨st.chunks ++ [s], st.chunkStart + st.chunkSize + inc, 0⟩
        else reduceLoop b inc rest (i + 1) ⟨st.chunks, st.chunkStart + inc, st.chunkSize⟩
      else reduceLoop b inc rest (i + 1) st

/-- `Batch.Reduce` (src/anyseq/reduce.go lines 16-45): compact `b` to the
sub-mask `present`, concatenating the kept slices. -/
def Batch.Reduce (b : Batch) (present : List Bool) : Except VecErr Batch :=
  if b.NumPresent = 0 then .error .divisionByZero
  else
    let inc := b.Packed.length / b.NumPresent
    match reduceLoop b inc present 0 ⟨[], 0, 0⟩ with
    | .error e => .error e
    | .ok st =>
      if 0 < st.chunkSize then
        match sliceV b.Packed st.chunkStart (st.chunkStart + st.chunkSize) with
        | .error e => .error e
        | .ok s => .ok ⟨(st.chunks ++ [s]).flatten, present⟩
      else .ok ⟨st.chunks.flatten, present⟩

/-- The `for i, pres := range present` loop of `Batch.Expand`
(src/anyseq/reduce.go lines 62-78). -/
def expandLoop (b : Batch) (inc : Nat) (filler : List Int) :
    List Bool → Nat → RState → Except VecErr RState
  | [], _, st => .ok st
  | p :: rest, i, st =>
    match b.Present.get? i with
    | none => .error .indexOutOfRange
    | some bp =>
      if bp then
        if p then
          expandLoop b inc filler rest (i + 1) ⟨st.chunks, st.chunkStart, st.chunkSize + inc⟩
        else .error (.panicked "argument to Expand must be a superset")
      else if p then
        if 0 < st.chunkSize then
          match sliceV b.Packed st.chunkStart (st.chunkStart + st.chunkSize) with
          | .error e => .error e
          | .ok s =>
            expandLoop b inc filler rest (i + 1)
              ⟨st.chunks ++ [s, filler], st.chunkStart + st.chunkSize, 0⟩
        else expandLoop b inc filler rest (i + 1) ⟨st.chunks ++ [filler], st.chunkStart, st.chunkSize⟩
      else expandLoop b inc filler rest (i + 1) st

/-- `Batch.Expand` (src/anyseq/reduce.go lines 55-86): re-inflate `b` to
the super-mask `present`, inserting a zero chunk for every newly present
slot. -/
def Batch.Expand (b : Batch) (present : List Bool) : Except VecErr Batch :=
  if b.NumPresent = 0 then .error .divisionByZero
  else
    let inc := b.Packed.length / b.NumPresent
    let filler : List Int := List.replicate inc 0
    match expandLoop b inc filler present 0 ⟨[], 0, 0⟩ with
    | .error e => .error e
    | .ok st =>
      if 0 < st.chunkSize then
        match sliceV b.Packed st.chunkStart (st.chunkSize + st.chunkStart) with
        | .error e => .error e
        | .ok s => .ok ⟨(st.chunks ++ [s]).flatten, present⟩
      else .ok ⟨st.chunks.flatten, present⟩

/-- The `p[i] = b && x.Present[i]` loop of the sequence-level `Reduce`
(src/anyseq/reduce.go lines 106-109): intersect the remaining target-mask
entries (starting at index `i`) with `xPres`; `&&` short-circuits, so
`xPres` is only indexed when the target entry is `true`. -/
def intersectMask (xPres : List Bool) : List Bool → Nat → Except VecErr (List Bool)
  | [], _ => .ok []
  | p :: rest, i =>
    if p then
      match xPres.get? i with
      | none => .error .indexOutOfRange
      | some xb =>
        match intersectMask xPres rest (i + 1) with
        | .error e => .error e
        | .ok t => .ok ((p && xb) :: t)
    else
      match intersectMask xPres rest (i + 1) with
      | .error e => .error e
      | .ok t => .ok (false :: t)

/-- The sequence-level `Reduce` (src/anyseq/reduce.go lines 102-117),
represented by the output list it computes: a sequence is modelled by its
`Output()` list of batches, `sOut` being the input sequence's output.
Each timestep is reduced to the intersection of `present` with its own
mask; the output is truncated at the first fully-empty reduced batch. -/
def Reduce : List Batch → List Bool → Except VecErr (List Batch)
  | [], _ => .ok []
  | x :: rest, present =>
    match intersectMask x.Present present 0 with
    | .error e => .error e
    | .ok p =>
      match x.Reduce p with
      | .error e => .error e
      | .ok r =>
        if r.NumPresent = 0 then .ok []
        else
          match Reduce rest present with
          | .error e => .error e
          | .ok t => .ok (r :: t)

/-- The first loop of `reduceRes.Propagate` (src/anyseq/reduce.go lines
134-137): expand each upstream gradient batch back to the corresponding
input timestep's original mask, `i` indexing into `inOut`. -/
def expandEach (inOut : List Batch) : List Batch → Nat → Except VecErr (List Batch)
  | [], _ => .ok []
  | x :: rest, i =>
    match inOut.get? i with
    | none => .error .indexOutOfRange
    | some o =>
      match x.Expand o.Present with
      | .error e => .error e
      | .ok ex =>
        match expandEach inOut rest (i + 1) with
        | .error e => .error e
        | .ok t => .ok (ex :: t)

/-- The all-zero gradient batch synthesized for a dropped timestep by
`reduceRes.Propagate` (src/anyseq/reduce.go lines 139-142): a zero vector
of the same length as `o.Packed`, with `o`'s mask. -/
def zeroBatchLike (o : Batch) : Batch := ⟨List.replicate o.Packed.length 0, o.Present⟩

/-- `reduceRes.Propagate` (src/anyseq/reduce.go lines 131-144), computing
the gradient list that is delegated to the input sequence's `Propagate`:
expanded upstream batches for the emitted timesteps followed by all-zero
batches for the dropped ones. -/
def reducePropagateArg (inOut u : List Batch) : Except VecErr (List Batch) :=
  match expandEach inOut u 0 with
  | .error e => .error e
  | .ok ex => .ok (ex ++ (inOut.drop u.length).map zeroBatchLike)

/-- The `for j, keep := range sOut[0].Present` loop of `Prune`
(src/anyseq/reduce.go lines 159-163): build the new mask for a timestep
with mask `cur` by selecting, for each slot kept at timestep 0 (the
remaining entries of the first timestep's mask, starting at index `j`),
that slot's boolean from `cur`. -/
def pruneMask (cur : List Bool) : List Bool → Nat → Except VecErr (List Bool)
  | [], _ => .ok []
  | keep :: rest, j =>
    if keep then
      match cur.get? j with
      | none => .error .indexOutOfRange
      | some v =>
        match pruneMask cur rest (j + 1) with
        | .error e => .error e
        | .ok t => .ok (v :: t)
    else pruneMask cur rest (j + 1)

/-- The outer loop of `Prune` (src/anyseq/reduce.go lines 157-165):
rewrite every batch's mask via `pruneMask`, keeping its packed vector. -/
def pruneEach (first : List Bool) : List Batch → Except VecErr (List Batch)
  | [] => .ok []
  | x :: rest =>
    match pruneMask x.Present first 0 with
    | .error e => .error e
    | .ok m =>
      match pruneEach first rest with
      | .error e => .error e
      | .ok t => .ok (⟨x.Packed, m⟩ :: t)

/-- `Prune` (src/anyseq/reduce.go lines 152-168), represented by the
output list it computes: a zero-timestep sequence is returned unchanged,
otherwise every timestep's mask is rewritten to keep only the slots
present at timestep 0. -/
def Prune : List Batch → Except VecErr (List Batch)
  | [] => .ok []
  | x0 :: rest => pruneEach x0.Present (x0 :: rest)

/-- Spec-side description (refinement target) of the mask `Prune` builds:
the values of `cur` at exactly those positions where `first` is `true`,
in slot order. -/
def pruneMaskSpec (first cur : List Bool) : List Bool :=
  (first.zip cur).filterMap fun pr => if pr.1 = true then some pr.2 else none

/-- Clean recursive form of the data flow of `Batch.Reduce`: the mask
pairs are `(target, source)` per slot; for each source-present slot one
`inc`-wide chunk of `w` is consumed, and kept exactly when the target
mask also holds the slot. -/
def reduceC (inc : Nat) : List (Bool × Bool) → List Int → List Int
  | [], _ => []
  | pr :: rest, w =>
    if pr.2 then (if pr.1 then w.take inc else []) ++ reduceC inc rest (w.drop inc)
    else reduceC inc rest w

/-- Clean recursive form of the data flow of `Batch.Expand`: for each
source-present slot one `inc`-wide chunk of `w` is copied; a slot present
only in the target mask contributes an `inc`-wide zero chunk. -/
def expandC (inc : Nat) : List (Bool × Bool) → List Int → List Int
  | [], _ => []
  | pr :: rest, w =>
    if pr.2 then w.take inc ++ expandC inc rest (w.drop inc)
    else if pr.1 then List.replicate inc 0 ++ expandC inc rest w
    else expandC inc rest w

theorem sliceV_ok {v : List Int} {start stop : Nat} (h1 : start ≤ stop) (h2 : stop ≤ v.length) :
    sliceV v start stop = .ok (seg v start (stop - start)) := by
  simp [sliceV, seg, h1, h2]

theorem seg_zero (v : List Int) (start : Nat) : seg v start 0 = [] := by
  simp [seg]

theorem seg_split (v : List Int) (start m n : Nat) :
    seg v start (m + n) = seg v start m ++ seg v (start + m) n := by
  simp [seg, List.take_add, List.drop_drop]

theorem count_take_le (l : List Bool) (n : Nat) : (l.take n).count true ≤ l.count true := by
  conv_rhs => rw [← List.take_append_drop n l]
  rw [List.count_append]
  exact Nat.le_add_right _ _

theorem count_take_succ (l : List Bool) {i : Nat} (h : i < l.length) :
    (l.take (i + 1)).count true
      = (l.take i).count true + (if l[i] = true then 1 else 0) := by
  rw [List.take_succ, List.getElem?_eq_getElem h, List.count_append]
  cases hb : l[i] <;> simp [hb]

/-- Loop invariant of `reduceLoop`: provided the remaining mask entries
stay inside `b.Present`, every kept target slot is source-present, and
`chunkStart + chunkSize` equals `inc` times the number of source-present
slots already passed, the loop succeeds and its final flushed data equals
the data flushed so far followed by `reduceC` over the remaining slots. -/
theorem reduceLoop_ok (b : Batch) (inc : Nat)
    (hb : inc * b.Present.count true ≤ b.Packed.length)
    (ms : List Bool) :
    ∀ (i : Nat) (st : RState),
      i + ms.length ≤ b.Present.length →
      (∀ pr ∈ ms.zip (b.Present.drop i), pr.1 = true → pr.2 = true) →
      st.chunkStart + st.chunkSize = inc * ((b.Present.take i).count true) →
      ∃ st' : RState,
        reduceLoop b inc ms i st = .ok st' ∧
        st'.chunks.flatten ++ seg b.Packed st'.chunkStart st'.chunkSize
          = st.chunks.flatten ++ seg b.Packed st.chunkStart st.chunkSize
              ++ reduceC inc (ms.zip (b.Present.drop i))
                  (b.Packed.drop (st.chunkStart + st.chunkSize)) ∧
        st'.chunkStart + st'.chunkSize = inc * ((b.Present.take (i + ms.length)).count true) := by
  induction ms with
  | nil =>
    intro i st hlen hsub hst
    exact ⟨st, rfl, by simp [reduceC], by simpa using hst⟩
  | cons p rest ih =>
    intro i st hlen hsub hst
    have hi : i < b.Present.length := by
      simp only [List.length_cons] at hlen; omega
    have hget : b.Present.get? i = some b.Present[i] := by
      rw [List.get?_eq_getElem?, List.getElem?_eq_getElem hi]
    have hdrop : b.Present.drop i = b.Present[i] :: b.Present.drop (i + 1) :=
      List.drop_eq_getElem_cons hi
    have hcnt := count_take_succ b.Present hi
    have hzip : (p :: rest).zip (b.Present.drop i)
        = (p, b.Present[i]) :: rest.zip (b.Present.drop (i + 1)) := by
      rw [hdrop, List.zip_cons_cons]
    have hs0 : p = true → b.Present[i] = true := by
      intro hp
      exact hsub (p, b.Present[i]) (by rw [hzip]; exact List.mem_cons_self _ _) hp
    have hsub' : ∀ pr ∈ rest.zip (b.Present.drop (i + 1)), pr.1 = true → pr.2 = true :=
      fun pr hpr => hsub pr (by rw [hzip]; exact List.mem_cons_of_mem _ hpr)
    have hlen' : (i + 1) + rest.length ≤ b.Present.length := by
      simp only [List.length_cons] at hlen; omega
    have hflush : st.chunkStart + st.chunkSize ≤ b.Packed.length := by
      rw [hst]
      exact le_trans (Nat.mul_le_mul_left inc (count_take_le _ _)) hb
    have harith : i + 1 + rest.length = i + (rest.length + 1) := by omega
    cases p with
    | true =>
      have hbp : b.Present[i] = true := hs0 rfl
      rw [hbp] at hzip
      have hcnt1 : (b.Present.take (i + 1)).count true
          = (b.Present.take i).count true + 1 := by
        rw [hcnt, hbp]; simp
      have hst1 : st.chunkStart + (st.chunkSize + inc)
          = inc * ((b.Present.take (i + 1)).count true) := by
        rw [hcnt1, Nat.mul_add, Nat.mul_one, ← hst]; omega
      obtain ⟨st', h1, h2, h3⟩ :=
        ih (i + 1) ⟨st.chunks, st.chunkStart, st.chunkSize + inc⟩ hlen' hsub' hst1
      refine ⟨st', ?_, ?_, ?_⟩
      · simp only [reduceLoop, hget, hbp]
        exact h1
      · rw [h2, hzip]
        simp only [reduceC]
        rw [seg_split b.Packed st.chunkStart st.chunkSize inc]
        simp [seg, List.drop_drop, List.append_assoc, Nat.add_assoc]
      · rw [h3, harith]; simp
    | false =>
      cases hbp : b.Present[i] with
      | true =>
        rw [hbp] at hzip
        have hcnt1 : (b.Present.take (i + 1)).count true
            = (b.Present.take i).count true + 1 := by
          rw [hcnt, hbp]; simp
        by_cases hsz : 0 < st.chunkSize
        · have hslice : sliceV b.Packed st.chunkStart (st.chunkStart + st.chunkSize)
              = .ok (seg b.Packed st.chunkStart st.chunkSize) := by
            rw [sliceV_ok (Nat.le_add_right _ _) hflush, Nat.add_sub_cancel_left]
          have hst1 : (st.chunkStart + st.chunkSize + inc) + 0
              = inc * ((b.Present.take (i + 1)).count true) := by
            rw [hcnt1, Nat.mul_add, Nat.mul_one, ← hst]; omega
          obtain ⟨st', h1, h2, h3⟩ :=
            ih (i + 1) ⟨st.chunks ++ [seg b.Packed st.chunkStart st.chunkSize],
              st.chunkStart + st.chunkSize + inc, 0⟩ hlen' hsub' hst1
          refine ⟨st', ?_, ?_, ?_⟩
          · simp only [reduceLoop, hget, hbp, hslice, if_pos hsz]
            exact h1
          · rw [h2, hzip]
            simp only [reduceC]
            simp [seg, seg_zero, List.drop_drop, List.append_assoc]
          · rw [h3, harith]; simp
        · have hsz0 : st.chunkSize = 0 := Nat.eq_zero_of_not_pos hsz
          have hst1 : (st.chunkStart + inc) + st.chunkSize
              = inc * ((b.Present.take (i + 1)).count true) := by
            rw [hcnt1, Nat.mul_add, Nat.mul_one, ← hst]; omega
          obtain ⟨st', h1, h2, h3⟩ :=
            ih (i + 1) ⟨st.chunks, st.chunkStart + inc, st.chunkSize⟩ hlen' hsub' hst1
          refine ⟨st', ?_, ?_, ?_⟩
          · simp only [reduceLoop, hget, hbp, if_neg hsz]
            exact h1
          · rw [h2, hzip]
            simp only [reduceC]
            simp [seg, hsz0, List.drop_drop, List.append_assoc]
          · rw [h3, harith]; simp
      | false =>
        rw [hbp] at hzip
        have hst1 : st.chunkStart + st.chunkSize
            = inc * ((b.Present.take (i + 1)).count true) := by
          rw [hcnt, hbp]
          simpa using hst
        obtain ⟨st', h1, h2, h3⟩ := ih (i + 1) st hlen' hsub' hst1
        refine ⟨st', ?_, ?_, ?_⟩
        · simp only [reduceLoop, hget, hbp]
          exact h1
        · rw [h2, hzip]
          simp only [reduceC]
          simp
        · rw [h3, harith]; simp

/-- Loop invariant of `expandLoop` (with the zero filler the code
allocates): provided every source-present slot is also target-present and
`chunkStart + chunkSize` tracks `inc` times the source-present slots
already passed, the loop succeeds and its final flushed data equals the
data flushed so far followed by `expandC` over the remaining slots. -/
theorem expandLoop_ok (b : Batch) (inc : Nat)
    (hb : inc * b.Present.count true ≤ b.Packed.length)
    (ms : List Bool) :
    ∀ (i : Nat) (st : RState),
      i + ms.length ≤ b.Present.length →
      (∀ pr ∈ ms.zip (b.Present.drop i), pr.2 = true → pr.1 = true) →
      st.chunkStart + st.chunkSize = inc * ((b.Present.take i).count true) →
      ∃ st' : RState,
        expandLoop b inc (List.replicate inc 0) ms i st = .ok st' ∧
        st'.chunks.flatten ++ seg b.Packed st'.chunkStart st'.chunkSize
          = st.chunks.flatten ++ seg b.Packed st.chunkStart st.chunkSize
              ++ expandC inc (ms.zip (b.Present.drop i))
                  (b.Packed.drop (st.chunkStart + st.chunkSize)) ∧
        st'.chunkStart + st'.chunkSize = inc * ((b.Present.take (i + ms.length)).count true) := by
  induction ms with
  | nil =>
    intro i st hlen hsup hst
    exact ⟨st, rfl, by simp [expandC], by simpa using hst⟩
  | cons p rest ih =>
    intro i st hlen hsup hst
    have hi : i < b.Present.length := by
      simp only [List.length_cons] at hlen; omega
    have hget : b.Present.get? i = some b.Present[i] := by
      rw [List.get?_eq_getElem?, List.getElem?_eq_getElem hi]
    have hdrop : b.Present.drop i = b.Present[i] :: b.Present.drop (i + 1) :=
      List.drop_eq_getElem_cons hi
    have hcnt := count_take_succ b.Present hi
    have hzip : (p :: rest).zip (b.Present.drop i)
        = (p, b.Present[i]) :: rest.zip (b.Present.drop (i + 1)) := by
      rw [hdrop, List.zip_cons_cons]
    have hs0 : b.Present[i] = true → p = true := by
      intro hp
      exact hsup (p, b.Present[i]) (by rw [hzip]; exact List.mem_cons_self _ _) hp
    have hsup' : ∀ pr ∈ rest.zip (b.Present.drop (i + 1)), pr.2 = true → pr.1 = true :=
      fun pr hpr => hsup pr (by rw [hzip]; exact List.mem_cons_of_mem _ hpr)
    have hlen' : (i + 1) + rest.length ≤ b.Present.length := by
      simp only [List.length_cons] at hlen; omega
    have hflush : st.chunkStart + st.chunkSize ≤ b.Packed.length := by
      rw [hst]
      exact le_trans (Nat.mul_le_mul_left inc (count_take_le _ _)) hb
    have harith : i + 1 + rest.length = i + (rest.length + 1) := by omega
    cases hbp : b.Present[i] with
    | true =>
      have hp : p = true := hs0 hbp
      subst hp
      rw [hbp] at hzip
      have hcnt1 : (b.Present.take (i + 1)).count true
          = (b.Present.take i).count true + 1 := by
        rw [hcnt, hbp]; simp
      have hst1 : st.chunkStart + (st.chunkSize + inc)
          = inc * ((b.Present.take (i + 1)).count true) := by
        rw [hcnt1, Nat.mul_add, Nat.mul_one, ← hst]; omega
      obtain ⟨st', h1, h2, h3⟩ :=
        ih (i + 1) ⟨st.chunks, st.chunkStart, st.chunkSize + inc⟩ hlen' hsup' hst1
      refine ⟨st', ?_, ?_, ?_⟩
      · simp only [expandLoop, hget, hbp]
        exact h1
      · rw [h2, hzip]
        simp only [expandC]
        rw [seg_split b.Packed st.chunkStart st.chunkSize inc]
        simp [seg, List.drop_drop, List.append_assoc, Nat.add_assoc]
      · rw [h3, harith]; simp
    | false =>
      rw [hbp] at hzip
      have hcnt0 : (b.Present.take (i + 1)).count true
          = (b.Present.take i).count true := by
        rw [hcnt, hbp]; simp
      have hst1 : st.chunkStart + st.chunkSize
          = inc * ((b.Present.take (i + 1)).count true) := by
        rw [hcnt0]; exact hst
      cases p with
      | true =>
        by_cases hsz : 0 < st.chunkSize
        · have hslice : sliceV b.Packed st.chunkStart (st.chunkStart + st.chunkSize)
              = .ok (seg b.Packed st.chunkStart st.chunkSize) := by
            rw [sliceV_ok (Nat.le_add_right _ _) hflush, Nat.add_sub_cancel_left]
          obtain ⟨st', h1, h2, h3⟩ :=
            ih (i + 1)
              ⟨st.chunks ++ [seg b.Packed st.chunkStart st.chunkSize, List.replicate inc 0],
                st.chunkStart + st.chunkSize, 0⟩ hlen' hsup'
              (by simpa using hst1)
          refine ⟨st', ?_, ?_, ?_⟩
          · simp only [expandLoop, hget, hbp, hslice, if_pos hsz]
            exact h1
          · rw [h2, hzip]
            simp only [expandC]
            simp [seg, List.drop_drop, List.append_assoc]
          · rw [h3, harith]; simp
        · obtain ⟨st', h1, h2, h3⟩ :=
            ih (i + 1) ⟨st.chunks ++ [List.replicate inc 0], st.chunkStart, st.chunkSize⟩
              hlen' hsup' hst1
          refine ⟨st', ?_, ?_, ?_⟩
          · simp only [expandLoop, hget, hbp, if_neg hsz]
            exact h1
          · rw [h2, hzip]
            have hsz0 : st.chunkSize = 0 := Nat.eq_zero_of_not_pos hsz
            simp only [expandC]
            simp [seg, hsz0, List.append_assoc]
          · rw [h3, harith]; simp
      | false =>
        obtain ⟨st', h1, h2, h3⟩ := ih (i + 1) st hlen' hsup' hst1
        refine ⟨st', ?_, ?_, ?_⟩
        · simp only [expandLoop, hget, hbp]
          exact h1
        · rw [h2, hzip]
          simp only [expandC]
          simp
        · rw [h3, harith]; simp

/-- Under its precondition (a nonempty source batch, a target mask no
longer than the source mask that re-adds no absent slot), `Batch.Reduce`
succeeds and returns `reduceC` over the zipped masks. -/
theorem Reduce_eq (b : Batch) (present : List Bool)
    (hn : 0 < b.NumPresent)
    (hlen : present.length ≤ b.Present.length)
    (hsub : ∀ pr ∈ present.zip b.Present, pr.1 = true → pr.2 = true) :
    b.Reduce present
      = .ok ⟨reduceC (b.Packed.length / b.NumPresent) (present.zip b.Present) b.Packed,
          present⟩ := by
  have hne : b.NumPresent ≠ 0 := Nat.pos_iff_ne_zero.mp hn
  have hb : (b.Packed.length / b.NumPresent) * b.Present.count true ≤ b.Packed.length :=
    Nat.div_mul_le_self _ _
  obtain ⟨st', h1, h2, h3⟩ :=
    reduceLoop_ok b (b.Packed.length / b.NumPresent) hb present 0 ⟨[], 0, 0⟩
      (by simpa using hlen) (by simpa using hsub) (by simp)
  have hbound : st'.chunkStart + st'.chunkSize ≤ b.Packed.length := by
    rw [h3]
    exact le_trans (Nat.mul_le_mul_left _ (count_take_le _ _)) hb
  have h2' : st'.chunks.flatten ++ seg b.Packed st'.chunkStart st'.chunkSize
      = reduceC (b.Packed.length / b.NumPresent) (present.zip b.Present) b.Packed := by
    simpa [seg_zero] using h2
  by_cases hsz : 0 < st'.chunkSize
  · have hslice : sliceV b.Packed st'.chunkStart (st'.chunkStart + st'.chunkSize)
        = .ok (seg b.Packed st'.chunkStart st'.chunkSize) := by
      rw [sliceV_ok (Nat.le_add_right _ _) hbound, Nat.add_sub_cancel_left]
    simp only [Batch.Reduce, hne, if_false, h1, hsz, if_true, hslice]
    simp only [List.flatten_append, List.flatten_cons, List.flatten_nil, List.append_nil]
    rw [h2']
  · have hsz0 : st'.chunkSize = 0 := Nat.eq_zero_of_not_pos hsz
    simp only [Batch.Reduce, hne, if_false, h1, hsz]
    rw [hsz0, seg_zero, List.append_nil] at h2'
    rw [h2']

/-- Under its precondition (a nonempty source batch, a target mask no
longer than the source mask that keeps every source-present slot),
`Batch.Expand` succeeds and returns `expandC` over the zipped masks. -/
theorem Expand_eq (b : Batch) (present : List Bool)
    (hn : 0 < b.NumPresent)
    (hlen : present.length ≤ b.Present.length)
    (hsup : ∀ pr ∈ present.zip b.Present, pr.2 = true → pr.1 = true) :
    b.Expand present
      = .ok ⟨expandC (b.Packed.length / b.NumPresent) (present.zip b.Present) b.Packed,
          present⟩ := by
  have hne : b.NumPresent ≠ 0 := Nat.pos_iff_ne_zero.mp hn
  have hb : (b.Packed.length / b.NumPresent) * b.Present.count true ≤ b.Packed.length :=
    Nat.div_mul_le_self _ _
  obtain ⟨st', h1, h2, h3⟩ :=
    expandLoop_ok b (b.Packed.length / b.NumPresent) hb present 0 ⟨[], 0, 0⟩
      (by simpa using hlen) (by simpa using hsup) (by simp)
  have hbound : st'.chunkStart + st'.chunkSize ≤ b.Packed.length := by
    rw [h3]
    exact le_trans (Nat.mul_le_mul_left _ (count_take_le _ _)) hb
  have h2' : st'.chunks.flatten ++ seg b.Packed st'.chunkStart st'.chunkSize
      = expandC (b.Packed.length / b.NumPresent) (present.zip b.Present) b.Packed := by
    simpa [seg_zero] using h2
  by_cases hsz : 0 < st'.chunkSize
  · have hslice : sliceV b.Packed st'.chunkStart (st'.chunkSize + st'.chunkStart)
        = .ok (seg b.Packed st'.chunkStart st'.chunkSize) := by
      rw [Nat.add_comm st'.chunkSize st'.chunkStart]
      rw [sliceV_ok (Nat.le_add_right _ _) hbound, Nat.add_sub_cancel_left]
    simp only [Batch.Expand, hne, if_false, h1, hsz, if_true, hslice]
    simp only [List.flatten_append, List.flatten_cons, List.flatten_nil, List.append_nil]
    rw [h2']
  · have hsz0 : st'.chunkSize = 0 := Nat.eq_zero_of_not_pos hsz
    simp only [Batch.Expand, hne, if_false, h1, hsz]
    rw [hsz0, seg_zero, List.append_nil] at h2'
    rw [h2']

/-- If some remaining target-mask entry re-adds a slot absent in the
source batch, `reduceLoop` aborts with the re-add panic (all slice
operations before the offending slot stay in bounds). -/
theorem reduceLoop_err (b : Batch) (inc : Nat)
    (hb : inc * b.Present.count true ≤ b.Packed.length)
    (ms : List Bool) :
    ∀ (i : Nat) (st : RState),
      i + ms.length ≤ b.Present.length →
      st.chunkStart + st.chunkSize = inc * ((b.Present.take i).count true) →
      (∃ pr ∈ ms.zip (b.Present.drop i), pr.1 = true ∧ pr.2 = false) →
      reduceLoop b inc ms i st = .error (.panicked "cannot re-add sequences") := by
  induction ms with
  | nil =>
    intro i st _ _ hbad
    obtain ⟨pr, hpr, _⟩ := hbad
    simp at hpr
  | cons p rest ih =>
    intro i st hlen hst hbad
    have hi : i < b.Present.length := by
      simp only [List.length_cons] at hlen; omega
    have hget : b.Present.get? i = some b.Present[i] := by
      rw [List.get?_eq_getElem?, List.getElem?_eq_getElem hi]
    have hdrop : b.Present.drop i = b.Present[i] :: b.Present.drop (i + 1) :=
      List.drop_eq_getElem_cons hi
    have hcnt := count_take_succ b.Present hi
    have hzip : (p :: rest).zip (b.Present.drop i)
        = (p, b.Present[i]) :: rest.zip (b.Present.drop (i + 1)) := by
      rw [hdrop, List.zip_cons_cons]
    have hlen' : (i + 1) + rest.length ≤ b.Present.length := by
      simp only [List.length_cons] at hlen; omega
    have hflush : st.chunkStart + st.chunkSize ≤ b.Packed.length := by
      rw [hst]
      exact le_trans (Nat.mul_le_mul_left inc (count_take_le _ _)) hb
    rw [hzip] at hbad
    cases p with
    | true =>
      cases hbp : b.Present[i] with
      | false =>
        simp [reduceLoop, List.getElem?_eq_getElem hi, hbp]
      | true =>
        have hbad' : ∃ pr ∈ rest.zip (b.Present.drop (i + 1)), pr.1 = true ∧ pr.2 = false := by
          obtain ⟨pr, hpr, hco⟩ := hbad
          rcases List.mem_cons.mp hpr with hh | ht
          · rw [hbp] at hh
            rw [hh] at hco
            exact absurd hco.2 (by simp)
          · exact ⟨pr, ht, hco⟩
        have hcnt1 : (b.Present.take (i + 1)).count true
            = (b.Present.take i).count true + 1 := by
          rw [hcnt, hbp]; simp
        have hst1 : st.chunkStart + (st.chunkSize + inc)
            = inc * ((b.Present.take (i + 1)).count true) := by
          rw [hcnt1, Nat.mul_add, Nat.mul_one, ← hst]; omega
        simp only [reduceLoop, hget, hbp]
        exact ih (i + 1) ⟨st.chunks, st.chunkStart, st.chunkSize + inc⟩ hlen' hst1 hbad'
    | false =>
      have hbad' : ∃ pr ∈ rest.zip (b.Present.drop (i + 1)), pr.1 = true ∧ pr.2 = false := by
        obtain ⟨pr, hpr, hco⟩ := hbad
        rcases List.mem_cons.mp hpr with hh | ht
        · rw [hh] at hco
          exact absurd hco.1 (by simp)
        · exact ⟨pr, ht, hco⟩
      cases hbp : b.Present[i] with
      | true =>
        have hcnt1 : (b.Present.take (i + 1)).count true
            = (b.Present.take i).count true + 1 := by
          rw [hcnt, hbp]; simp
        by_cases hsz : 0 < st.chunkSize
        · have hslice : sliceV b.Packed st.chunkStart (st.chunkStart + st.chunkSize)
              = .ok (seg b.Packed st.chunkStart st.chunkSize) := by
            rw [sliceV_ok (Nat.le_add_right _ _) hflush, Nat.add_sub_cancel_left]
          have hst1 : (st.chunkStart + st.chunkSize + inc) + 0
              = inc * ((b.Present.take (i + 1)).count true) := by
            rw [hcnt1, Nat.mul_add, Nat.mul_one, ← hst]; omega
          simp only [reduceLoop, hget, hbp, hslice, if_pos hsz]
          exact ih (i + 1) ⟨st.chunks ++ [seg b.Packed st.chunkStart st.chunkSize],
            st.chunkStart + st.chunkSize + inc, 0⟩ hlen' hst1 hbad'
        · have hst1 : (st.chunkStart + inc) + st.chunkSize
              = inc * ((b.Present.take (i + 1)).count true) := by
            rw [hcnt1, Nat.mul_add, Nat.mul_one, ← hst]; omega
          simp only [reduceLoop, hget, hbp, if_neg hsz]
          exact ih (i + 1) ⟨st.chunks, st.chunkStart + inc, st.chunkSize⟩ hlen' hst1 hbad'
      | false =>
        have hst1 : st.chunkStart + st.chunkSize
            = inc * ((b.Present.take (i + 1)).count true) := by
          rw [hcnt, hbp]
          simpa using hst
        simp only [reduceLoop, hget, hbp]
        exact ih (i + 1) st hlen' hst1 hbad'

/-- If some remaining source-present slot is dropped by the target mask,
`expandLoop` aborts with the superset panic. -/
theorem expandLoop_err (b : Batch) (inc : Nat)
    (hb : inc * b.Present.count true ≤ b.Packed.length)
    (ms : List Bool) :
    ∀ (i : Nat) (st : RState),
      i + ms.length ≤ b.Present.length →
      st.chunkStart + st.chunkSize = inc * ((b.Present.take i).count true) →
      (∃ pr ∈ ms.zip (b.Present.drop i), pr.2 = true ∧ pr.1 = false) →
      expandLoop b inc (List.replicate inc 0) ms i st
        = .error (.panicked "argument to Expand must be a superset") := by
  induction ms with
  | nil =>
    intro i st _ _ hbad
    obtain ⟨pr, hpr, _⟩ := hbad
    simp at hpr
  | cons p rest ih =>
    intro i st hlen hst hbad
    have hi : i < b.Present.length := by
      simp only [List.length_cons] at hlen; omega
    have hget : b.Present.get? i = some b.Present[i] := by
      rw [List.get?_eq_getElem?, List.getElem?_eq_getElem hi]
    have hdrop : b.Present.drop i = b.Present[i] :: b.Present.drop (i + 1) :=
      List.drop_eq_getElem_cons hi
    have hcnt := count_take_succ b.Present hi
    have hzip : (p :: rest).zip (b.Present.drop i)
        = (p, b.Present[i]) :: rest.zip (b.Present.drop (i + 1)) := by
      rw [hdrop, List.zip_cons_cons]
    have hlen' : (i + 1) + rest.length ≤ b.Present.length := by
      simp only [List.length_cons] at hlen; omega
    have hflush : st.chunkStart + st.chunkSize ≤ b.Packed.length := by
      rw [hst]
      exact le_trans (Nat.mul_le_mul_left inc (count_take_le _ _)) hb
    rw [hzip] at hbad
    cases p with
    | false =>
      cases hbp : b.Present[i] with
      | true =>
        simp [expandLoop, List.getElem?_eq_getElem hi, hbp]
      | false =>
        have hbad' : ∃ pr ∈ rest.zip (b.Present.drop (i + 1)), pr.2 = true ∧ pr.1 = false := by
          obtain ⟨pr, hpr, hco⟩ := hbad
          rcases List.mem_cons.mp hpr with hh | ht
          · rw [hbp] at hh
            rw [hh] at hco
            exact absurd hco.1 (by simp)
          · exact ⟨pr, ht, hco⟩
        have hst1 : st.chunkStart + st.chunkSize
            = inc * ((b.Present.take (i + 1)).count true) := by
          rw [hcnt, hbp]
          simpa using hst
        simp only [expandLoop, hget, hbp]
        exact ih (i + 1) st hlen' hst1 hbad'
    | true =>
      have hbad' : ∃ pr ∈ rest.zip (b.Present.drop (i + 1)), pr.2 = true ∧ pr.1 = false := by
        obtain ⟨pr, hpr, hco⟩ := hbad
        rcases List.mem_cons.mp hpr with hh | ht
        · rw [hh] at hco
          exact absurd hco.2 (by simp)
        · exact ⟨pr, ht, hco⟩
      cases hbp : b.Present[i] with
      | true =>
        have hcnt1 : (b.Present.take (i + 1)).count true
            = (b.Present.take i).count true + 1 := by
          rw [hcnt, hbp]; simp
        have hst1 : st.chunkStart + (st.chunkSize + inc)
            = inc * ((b.Present.take (i + 1)).count true) := by
          rw [hcnt1, Nat.mul_add, Nat.mul_one, ← hst]; omega
        simp only [expandLoop, hget, hbp]
        exact ih (i + 1) ⟨st.chunks, st.chunkStart, st.chunkSize + inc⟩ hlen' hst1 hbad'
      | false =>
        have hst1 : st.chunkStart + st.chunkSize
            = inc * ((b.Present.take (i + 1)).count true) := by
          rw [hcnt, hbp]
          simpa using hst
        by_cases hsz : 0 < st.chunkSize
        · have hslice : sliceV b.Packed st.chunkStart (st.chunkStart + st.chunkSize)
              = .ok (seg b.Packed st.chunkStart st.chunkSize) := by
            rw [sliceV_ok (Nat.le_add_right _ _) hflush, Nat.add_sub_cancel_left]
          simp only [expandLoop, hget, hbp, hslice, if_pos hsz]
          exact ih (i + 1)
            ⟨st.chunks ++ [seg b.Packed st.chunkStart st.chunkSize, List.replicate inc 0],
              st.chunkStart + st.chunkSize, 0⟩ hlen' (by simpa using hst1) hbad'
        · simp only [expandLoop, hget, hbp, if_neg hsz]
          exact ih (i + 1) ⟨st.chunks ++ [List.replicate inc 0], st.chunkStart, st.chunkSize⟩
            hlen' hst1 hbad'

/-- Function-level panic condition of `Batch.Reduce`: a mask entry that
re-adds an absent slot aborts the call with the re-add panic. -/
theorem Reduce_err (b : Batch) (present : List Bool)
    (hn : 0 < b.NumPresent)
    (hlen : present.length ≤ b.Present.length)
    (hbad : ∃ pr ∈ present.zip b.Present, pr.1 = true ∧ pr.2 = false) :
    b.Reduce present = .error (.panicked "cannot re-add sequences") := by
  have hne : b.NumPresent ≠ 0 := Nat.pos_iff_ne_zero.mp hn
  have hb : (b.Packed.length / b.NumPresent) * b.Present.count true ≤ b.Packed.length :=
    Nat.div_mul_le_self _ _
  have hloop := reduceLoop_err b (b.Packed.length / b.NumPresent) hb present 0 ⟨[], 0, 0⟩
    (by simpa using hlen) (by simp) (by simpa using hbad)
  simp only [Batch.Reduce, hne, if_false, hloop]

/-- Function-level panic condition of `Batch.Expand`: a source-present
slot dropped by the mask aborts the call with the superset panic. -/
theorem Expand_err (b : Batch) (present : List Bool)
    (hn : 0 < b.NumPresent)
    (hlen : present.length ≤ b.Present.length)
    (hbad : ∃ pr ∈ present.zip b.Present, pr.2 = true ∧ pr.1 = false) :
    b.Expand present = .error (.panicked "argument to Expand must be a superset") := by
  have hne : b.NumPresent ≠ 0 := Nat.pos_iff_ne_zero.mp hn
  have hb : (b.Packed.length / b.NumPresent) * b.Present.count true ≤ b.Packed.length :=
    Nat.div_mul_le_self _ _
  have hloop := expandLoop_err b (b.Packed.length / b.NumPresent) hb present 0 ⟨[], 0, 0⟩
    (by simpa using hlen) (by simp) (by simpa using hbad)
  simp only [Batch.Expand, hne, if_false, hloop]

theorem countP_fst_zip (xs : List Bool) :
    ∀ ys : List Bool, xs.length ≤ ys.length →
      (xs.zip ys).countP (fun pr => pr.1) = xs.count true := by
  induction xs with
  | nil => intro ys _; simp
  | cons x xs ih =>
    intro ys hlen
    cases ys with
    | nil => simp at hlen
    | cons y ys =>
      simp only [List.zip_cons_cons, List.countP_cons, List.count_cons]
      rw [ih ys (by simpa using hlen)]
      cases x <;> simp

theorem countP_snd_zip (xs : List Bool) :
    ∀ ys : List Bool, ys.length ≤ xs.length →
      (xs.zip ys).countP (fun pr => pr.2) = ys.count true := by
  induction xs with
  | nil =>
    intro ys hlen
    have : ys = [] := List.length_eq_zero.mp (Nat.le_zero.mp (by simpa using hlen))
    simp [this]
  | cons x xs ih =>
    intro ys hlen
    cases ys with
    | nil => simp
    | cons y ys =>
      simp only [List.zip_cons_cons, List.countP_cons, List.count_cons]
      rw [ih ys (by simpa using hlen)]
      cases y <;> simp

/-- Length of `reduceC`: each kept slot contributes exactly `inc`
elements, provided the data vector holds `inc` elements for every
source-present slot. -/
theorem reduceC_length (inc : Nat) :
    ∀ (pairs : List (Bool × Bool)) (w : List Int),
      (∀ pr ∈ pairs, pr.1 = true → pr.2 = true) →
      inc * pairs.countP (fun pr => pr.2) ≤ w.length →
      (reduceC inc pairs w).length = inc * pairs.countP (fun pr => pr.1) := by
  intro pairs
  induction pairs with
  | nil => intro w _ _; simp [reduceC]
  | cons pr rest ih =>
    intro w hsub hw
    have hsub' : ∀ q ∈ rest, q.1 = true → q.2 = true :=
      fun q hq => hsub q (List.mem_cons_of_mem _ hq)
    rcases pr with ⟨p, bp⟩
    cases bp with
    | true =>
      have hw1 : inc * rest.countP (fun pr => pr.2) + inc ≤ w.length := by
        rw [List.countP_cons] at hw
        simpa [Nat.mul_add] using hw
      have hinc : inc ≤ w.length := by omega
      have hw' : inc * rest.countP (fun pr => pr.2) ≤ (w.drop inc).length := by
        rw [List.length_drop]; omega
      cases p with
      | true =>
        simp [reduceC, List.countP_cons, ih (w.drop inc) hsub' hw',
          List.length_take, Nat.min_eq_left hinc, Nat.mul_add]
        omega
      | false =>
        simp [reduceC, List.countP_cons, ih (w.drop inc) hsub' hw', Nat.mul_add]
    | false =>
      cases p with
      | true => exact absurd (hsub (true, false) (List.mem_cons_self _ _) rfl) (by simp)
      | false =>
        have hw' : inc * rest.countP (fun pr => pr.2) ≤ w.length := by
          rw [List.countP_cons] at hw
          simpa using hw
        simp [reduceC, List.countP_cons, ih w hsub' hw']

/-- Length of `expandC`: each target-present slot contributes exactly
`inc` elements (copied or zero-filled). -/
theorem expandC_length (inc : Nat) :
    ∀ (pairs : List (Bool × Bool)) (w : List Int),
      (∀ pr ∈ pairs, pr.2 = true → pr.1 = true) →
      inc * pairs.countP (fun pr => pr.2) ≤ w.length →
      (expandC inc pairs w).length = inc * pairs.countP (fun pr => pr.1) := by
  intro pairs
  induction pairs with
  | nil => intro w _ _; simp [expandC]
  | cons pr rest ih =>
    intro w hsup hw
    have hsup' : ∀ q ∈ rest, q.2 = true → q.1 = true :=
      fun q hq => hsup q (List.mem_cons_of_mem _ hq)
    rcases pr with ⟨p, bp⟩
    cases bp with
    | true =>
      have hp : p = true := hsup (p, true) (List.mem_cons_self _ _) rfl
      subst hp
      have hw1 : inc * rest.countP (fun pr => pr.2) + inc ≤ w.length := by
        rw [List.countP_cons] at hw
        simpa [Nat.mul_add] using hw
      have hinc : inc ≤ w.length := by omega
      have hw' : inc * rest.countP (fun pr => pr.2) ≤ (w.drop inc).length := by
        rw [List.length_drop]; omega
      simp [expandC, List.countP_cons, ih (w.drop inc) hsup' hw',
        List.length_take, Nat.min_eq_left hinc, Nat.mul_add]
      omega
    | false =>
      have hw' : inc * rest.countP (fun pr => pr.2) ≤ w.length := by
        rw [List.countP_cons] at hw
        simpa using hw
      cases p with
      | true =>
        simp [expandC, List.countP_cons, ih w hsup' hw', Nat.mul_add]
        omega
      | false =>
        simp [expandC, List.countP_cons, ih w hsup' hw']

theorem seg_append {a : List Int} {n : Nat} (b : List Int) (k m : Nat) (h : a.length = n) :
    seg (a ++ b) (n + k) m = seg b k m := by
  simp only [seg]
  rw [← List.drop_drop, List.drop_left' h]

theorem seg_drop (v : List Int) (n k m : Nat) : seg v (n + k) m = seg (v.drop n) k m := by
  simp only [seg, List.drop_drop]

theorem reduceC_cons_true (inc : Nat) (p : Bool) (rest : List (Bool × Bool)) (w : List Int) :
    reduceC inc ((p, true) :: rest) w
      = (if p then w.take inc else []) ++ reduceC inc rest (w.drop inc) := by
  simp [reduceC]

theorem reduceC_cons_false (inc : Nat) (p : Bool) (rest : List (Bool × Bool)) (w : List Int) :
    reduceC inc ((p, false) :: rest) w = reduceC inc rest w := by
  simp [reduceC]

theorem expandC_cons_true (inc : Nat) (p : Bool) (rest : List (Bool × Bool)) (w : List Int) :
    expandC inc ((p, true) :: rest) w = w.take inc ++ expandC inc rest (w.drop inc) := by
  simp [expandC]

theorem expandC_cons_tf (inc : Nat) (rest : List (Bool × Bool)) (w : List Int) :
    expandC inc ((true, false) :: rest) w = List.replicate inc 0 ++ expandC inc rest w := by
  simp [expandC]

theorem expandC_cons_ff (inc : Nat) (rest : List (Bool × Bool)) (w : List Int) :
    expandC inc ((false, false) :: rest) w = expandC inc rest w := by
  simp [expandC]

theorem zip_map_swap (xs : List Bool) :
    ∀ ys : List Bool, (xs.zip ys).map Prod.swap = ys.zip xs := by
  induction xs with
  | nil => intro ys; cases ys <;> simp
  | cons x xs ih =>
    intro ys
    cases ys with
    | nil => simp
    | cons y ys => simp [List.zip_cons_cons, ih ys, Prod.swap]

/-- Core round-trip: expanding `w` along the swapped pairs and reducing
back along the original pairs recovers `w` exactly. In each pair the
first component is the source mask entry, the second the super-mask
entry. -/
theorem reduceC_expandC_round (inc : Nat) :
    ∀ (qs : List (Bool × Bool)) (w : List Int),
      (∀ pr ∈ qs, pr.1 = true → pr.2 = true) →
      w.length = inc * qs.countP (fun pr => pr.1) →
      reduceC inc qs (expandC inc (qs.map Prod.swap) w) = w := by
  intro qs
  induction qs with
  | nil =>
    intro w _ hw
    have hnil : w = [] := List.length_eq_zero.mp (by simpa using hw)
    subst hnil
    simp [reduceC]
  | cons pr rest ih =>
    intro w hss hw
    have hss' : ∀ q ∈ rest, q.1 = true → q.2 = true :=
      fun q hq => hss q (List.mem_cons_of_mem _ hq)
    rcases pr with ⟨bval, pval⟩
    have hhead : bval = true → pval = true :=
      fun h => hss (bval, pval) (List.mem_cons_self _ _) h
    rw [List.countP_cons] at hw
    cases bval with
    | true =>
      have hpv : pval = true := hhead rfl
      subst hpv
      have hw1 : w.length = inc * rest.countP (fun pr => pr.1) + inc := by
        rw [hw]; simp [Nat.mul_add]
      have hinc : inc ≤ w.length := by omega
      have htake : (w.take inc).length = inc := by
        rw [List.length_take]; exact Nat.min_eq_left hinc
      have hdropLen : (w.drop inc).length = inc * rest.countP (fun pr => pr.1) := by
        rw [List.length_drop]; omega
      rw [List.map_cons]
      show reduceC inc ((true, true) :: rest)
        (expandC inc ((true, true) :: rest.map Prod.swap) w) = w
      rw [expandC_cons_true, reduceC_cons_true]
      rw [if_pos rfl, List.take_left' htake, List.drop_left' htake]
      rw [ih (w.drop inc) hss' hdropLen]
      exact List.take_append_drop inc w
    | false =>
      have hw' : w.length = inc * rest.countP (fun pr => pr.1) := by
        rw [hw]; simp
      cases pval with
      | true =>
        have hrep : (List.replicate inc (0 : Int)).length = inc := List.length_replicate _ _
        rw [List.map_cons]
        show reduceC inc ((false, true) :: rest)
          (expandC inc ((true, false) :: rest.map Prod.swap) w) = w
        rw [expandC_cons_tf, reduceC_cons_true]
        rw [if_neg (by simp), List.drop_left' hrep, List.nil_append]
        exact ih w hss' hw'
      | false =>
        rw [List.map_cons]
        show reduceC inc ((false, false) :: rest)
          (expandC inc ((false, false) :: rest.map Prod.swap) w) = w
        rw [expandC_cons_ff, reduceC_cons_false]
        exact ih w hss' hw'

theorem seg_zero_start (v : List Int) (n : Nat) : seg v 0 n = v.take n := by
  simp [seg]

/-- Chunk characterization of `expandC`: the `inc`-wide chunk of the
output at the position of target-present slot `i` is the corresponding
chunk of `w` when the slot is source-present, and all zeros otherwise.
In each pair the first component is the target (super) mask entry, the
second the source mask entry. -/
theorem expandC_chunk (inc : Nat) :
    ∀ (qs : List (Bool × Bool)) (w : List Int),
      (∀ pr ∈ qs, pr.2 = true → pr.1 = true) →
      w.length = inc * qs.countP (fun pr => pr.2) →
      ∀ i, i < qs.length → (qs.getD i (false, false)).1 = true →
      seg (expandC inc qs w) (inc * ((qs.take i).countP (fun pr => pr.1))) inc
        = if (qs.getD i (false, false)).2 = true
          then seg w (inc * ((qs.take i).countP (fun pr => pr.2))) inc
          else List.replicate inc 0 := by
  intro qs
  induction qs with
  | nil => intro w _ _ i hi; simp at hi
  | cons pr rest ih =>
    intro w hsup hw i hi hp
    have hsup' : ∀ q ∈ rest, q.2 = true → q.1 = true :=
      fun q hq => hsup q (List.mem_cons_of_mem _ hq)
    rw [List.countP_cons] at hw
    rcases pr with ⟨p, bp⟩
    cases i with
    | zero =>
      simp only [List.getD_cons_zero] at hp ⊢
      cases bp with
      | true =>
        have hw1 : w.length = inc * rest.countP (fun pr => pr.2) + inc := by
          rw [hw]; simp [Nat.mul_succ]
        have hinc : inc ≤ w.length := by omega
        have htake : (w.take inc).length = inc := by
          rw [List.length_take]; exact Nat.min_eq_left hinc
        rw [expandC_cons_true]
        simp only [List.take_zero, List.countP_nil, Nat.mul_zero, seg_zero_start]
        rw [List.take_left' htake]
        simp
      | false =>
        subst hp
        have hrep : (List.replicate inc (0 : Int)).length = inc := List.length_replicate _ _
        rw [expandC_cons_tf]
        simp only [List.take_zero, List.countP_nil, Nat.mul_zero, seg_zero_start]
        rw [List.take_left' hrep]
        simp
    | succ j =>
      have hj : j < rest.length := by simpa using hi
      simp only [List.getD_cons_succ] at hp ⊢
      simp only [List.take_succ_cons, List.countP_cons]
      cases bp with
      | true =>
        have hpv : p = true := hsup (p, true) (List.mem_cons_self _ _) rfl
        subst hpv
        have hw1 : w.length = inc * rest.countP (fun pr => pr.2) + inc := by
          rw [hw]; simp [Nat.mul_succ]
        have hinc : inc ≤ w.length := by omega
        have htake : (w.take inc).length = inc := by
          rw [List.length_take]; exact Nat.min_eq_left hinc
        have hdropLen : (w.drop inc).length = inc * rest.countP (fun pr => pr.2) := by
          rw [List.length_drop]; omega
        rw [expandC_cons_true]
        have hoff1 : inc * ((rest.take j).countP (fun pr => pr.1) + if True then 1 else 0)
            = inc + inc * (rest.take j).countP (fun pr => pr.1) := by
          simp [Nat.mul_add]; omega
        have hoff2 : inc * ((rest.take j).countP (fun pr => pr.2) + if True then 1 else 0)
            = inc + inc * (rest.take j).countP (fun pr => pr.2) := by
          simp [Nat.mul_add]; omega
        simp only [show ((true, true).1 = true) = True by simp,
          show ((true, true).2 = true) = True by simp, hoff1, hoff2]
        rw [seg_append (expandC inc rest (w.drop inc))
          (inc * (rest.take j).countP (fun pr => pr.1)) inc htake]
        rw [ih (w.drop inc) hsup' hdropLen j hj hp]
        by_cases hcond : (rest.getD j (false, false)).2 = true
        · rw [if_pos hcond, if_pos hcond, seg_drop]
        · rw [if_neg hcond, if_neg hcond]
      | false =>
        cases p with
        | true =>
          have hw' : w.length = inc * rest.countP (fun pr => pr.2) := by
            rw [hw]; simp
          have hrep : (List.replicate inc (0 : Int)).length = inc := List.length_replicate _ _
          rw [expandC_cons_tf]
          have hoff1 : inc * ((rest.take j).countP (fun pr => pr.1) + if True then 1 else 0)
              = inc + inc * (rest.take j).countP (fun pr => pr.1) := by
            simp [Nat.mul_add]; omega
          simp only [show ((true, false).1 = true) = True by simp,
            show ((true, false).2 = true) = False by simp, hoff1, if_false, Nat.add_zero]
          rw [seg_append (expandC inc rest w)
            (inc * (rest.take j).countP (fun pr => pr.1)) inc hrep]
          rw [ih w hsup' hw' j hj hp]
        | false =>
          have hw' : w.length = inc * rest.countP (fun pr => pr.2) := by
            rw [hw]; simp
          rw [expandC_cons_ff]
          simp only [show ((false, false).1 = true) = False by simp,
            show ((false, false).2 = true) = False by simp, if_false, Nat.add_zero]
          rw [ih w hsup' hw' j hj hp]

theorem zip_take (xs : List Bool) :
    ∀ (ys : List Bool) (i : Nat), (xs.zip ys).take i = (xs.take i).zip (ys.take i) := by
  induction xs with
  | nil => intro ys i; simp
  | cons x xs ih =>
    intro ys i
    cases ys with
    | nil => simp
    | cons y ys =>
      cases i with
      | zero => simp
      | succ j => simp [List.zip_cons_cons, List.take_succ_cons, ih ys j]

theorem zip_getD (xs ys : List Bool) {i : Nat} (hx : i < xs.length) (hy : i < ys.length) :
    (xs.zip ys).getD i (false, false) = (xs.getD i false, ys.getD i false) := by
  have hz : i < (xs.zip ys).length := by rw [List.length_zip]; omega
  rw [List.getD_eq_getElem _ _ hz, List.getD_eq_getElem _ _ hx, List.getD_eq_getElem _ _ hy]
  exact List.getElem_zip

theorem mem_zip_swap {xs ys : List Bool} {pr : Bool × Bool} (h : pr ∈ xs.zip ys) :
    (pr.2, pr.1) ∈ ys.zip xs := by
  rw [← zip_map_swap xs ys]
  exact List.mem_map_of_mem Prod.swap h

theorem mask_superset_count_pos {bs ps : List Bool}
    (hn : 0 < bs.count true) (hlen : bs.length ≤ ps.length)
    (hsup : ∀ pr ∈ bs.zip ps, pr.1 = true → pr.2 = true) : 0 < ps.count true := by
  obtain ⟨i, hi, hbi⟩ := List.getElem_of_mem (List.count_pos_iff.mp hn)
  have hip : i < ps.length := by omega
  have hmem : (bs[i], ps[i]) ∈ bs.zip ps := by
    have hz : i < (bs.zip ps).length := by rw [List.length_zip]; omega
    have hm := List.getElem_mem hz
    rwa [List.getElem_zip] at hm
  have hpi : ps[i] = true := hsup _ hmem (by rw [hbi])
  exact List.count_pos_iff.mpr (hpi ▸ List.getElem_mem hip)

/-- C1: for every batch `b` satisfying the Batch invariant (at least one
present slot and packed length an exact multiple of the derived
per-sequence width) and every equal-length super-mask `present`,
`Reduce(Expand(b, present), b.Present)` succeeds and reproduces `b`
exactly: the same packed vector element for element and the same mask. -/
theorem c1_round_trip (b : Batch) (present : List Bool)
    (hn : 0 < b.NumPresent)
    (hInv : b.Packed.length = b.Packed.length / b.NumPresent * b.NumPresent)
    (hlen : present.length = b.Present.length)
    (hsup : ∀ pr ∈ present.zip b.Present, pr.2 = true → pr.1 = true) :
    ∃ e, b.Expand present = .ok e ∧ e.Reduce b.Present = .ok b := by
  have hle : present.length ≤ b.Present.length := le_of_eq hlen
  refine ⟨_, Expand_eq b present hn hle hsup, ?_⟩
  have hsub : ∀ pr ∈ b.Present.zip present, pr.1 = true → pr.2 = true := by
    intro pr hpr h1
    exact hsup (pr.2, pr.1) (mem_zip_swap hpr) h1
  have hcp : 0 < present.count true :=
    mask_superset_count_pos hn (le_of_eq hlen.symm) hsub
  have hq2 : (present.zip b.Present).countP (fun pr => pr.2) = b.NumPresent :=
    countP_snd_zip present b.Present (le_of_eq hlen.symm)
  have hq1 : (present.zip b.Present).countP (fun pr => pr.1) = present.count true :=
    countP_fst_zip present b.Present hle
  have hwb : (b.Packed.length / b.NumPresent) * (present.zip b.Present).countP (fun pr => pr.2)
      ≤ b.Packed.length := by
    rw [hq2]; exact Nat.div_mul_le_self _ _
  have hlenE : (expandC (b.Packed.length / b.NumPresent) (present.zip b.Present)
      b.Packed).length = (b.Packed.length / b.NumPresent) * present.count true := by
    rw [expandC_length _ _ _ hsup hwb, hq1]
  have hnE : (0 : Nat) < present.count true := hcp
  have hincE : (expandC (b.Packed.length / b.NumPresent) (present.zip b.Present)
      b.Packed).length / present.count true = b.Packed.length / b.NumPresent := by
    rw [hlenE]
    exact Nat.mul_div_cancel _ hcp
  have hR := Reduce_eq ⟨expandC (b.Packed.length / b.NumPresent) (present.zip b.Present)
      b.Packed, present⟩ b.Present (by simpa [Batch.NumPresent] using hcp)
    (le_of_eq hlen.symm) hsub
  rw [hR]
  have hq1' : (b.Present.zip present).countP (fun pr => pr.1) = b.Present.count true :=
    countP_fst_zip b.Present present (le_of_eq hlen.symm)
  have hrt : reduceC (b.Packed.length / b.NumPresent) (b.Present.zip present)
      (expandC (b.Packed.length / b.NumPresent) (present.zip b.Present) b.Packed)
      = b.Packed := by
    rw [← zip_map_swap b.Present present]
    exact reduceC_expandC_round _ (b.Present.zip present) b.Packed hsub
      (by rw [hq1']; exact hInv)
  simp only [Batch.NumPresent] at hincE hrt ⊢
  rw [hincE, hrt]

/-- C1 witness: the round trip at the concrete batch
`Packed=[1,2], Present=[true,false,false]` and super-mask
`[true,false,true]`. -/
theorem c1_round_trip_witness :
    (0 < (Batch.mk [1, 2] [true, false, false]).NumPresent)
    ∧ ∃ e, (Batch.mk [1, 2] [true, false, false]).Expand [true, false, true] = .ok e
        ∧ e.Reduce [true, false, false] = .ok (Batch.mk [1, 2] [true, false, false]) :=
  ⟨by decide,
    c1_round_trip ⟨[1, 2], [true, false, false]⟩ [true, false, true]
      (by decide) (by decide) (by decide) (by decide)⟩

/-- C10: a batch with no present slot makes both `Batch.Reduce` and
`Batch.Expand` fail with integer division by zero (computing the
per-sequence width) before any precondition check or data access. -/
theorem c10_empty_batch_divzero (b : Batch) (present : List Bool)
    (h : b.NumPresent = 0) :
    b.Reduce present = .error .divisionByZero
      ∧ b.Expand present = .error .divisionByZero := by
  constructor <;> simp [Batch.Reduce, Batch.Expand, h]

/-- C10 witness: the all-absent batch with empty packed vector. -/
theorem c10_empty_batch_divzero_witness :
    ((Batch.mk [] [false, false]).NumPresent = 0)
    ∧ (Batch.mk [] [false, false]).Reduce [false, false] = .error .divisionByZero
    ∧ (Batch.mk [] [false, false]).Expand [false, false] = .error .divisionByZero :=
  ⟨by decide, c10_empty_batch_divzero ⟨[], [false, false]⟩ [false, false] (by decide)⟩

/-- C4: for every batch with at least one present slot and equal-length
mask, `Batch.Reduce` aborts with "cannot re-add sequences" exactly when
some slot is in the mask but absent in the batch, `Batch.Expand` aborts
with "argument to Expand must be a superset" exactly when some
batch-present slot is missing from the mask, and with no such slot each
operation returns a batch normally. -/
theorem c4_abort_conditions (b : Batch) (present : List Bool)
    (hn : 0 < b.NumPresent)
    (hlen : present.length = b.Present.length) :
    (b.Reduce present = .error (.panicked "cannot re-add sequences")
        ↔ ∃ pr ∈ present.zip b.Present, pr.1 = true ∧ pr.2 = false)
      ∧ ((∀ pr ∈ present.zip b.Present, pr.1 = true → pr.2 = true)
          → ∃ r, b.Reduce present = .ok r)
      ∧ (b.Expand present = .error (.panicked "argument to Expand must be a superset")
          ↔ ∃ pr ∈ present.zip b.Present, pr.2 = true ∧ pr.1 = false)
      ∧ ((∀ pr ∈ present.zip b.Present, pr.2 = true → pr.1 = true)
          → ∃ r, b.Expand present = .ok r) := by
  have hle : present.length ≤ b.Present.length := le_of_eq hlen
  refine ⟨⟨fun herr => ?_, fun hbad => Reduce_err b present hn hle hbad⟩,
    fun hgood => ⟨_, Reduce_eq b present hn hle hgood⟩,
    ⟨fun herr => ?_, fun hbad => Expand_err b present hn hle hbad⟩,
    fun hgood => ⟨_, Expand_eq b present hn hle hgood⟩⟩
  · by_contra hno
    push_neg at hno
    have hgood : ∀ pr ∈ present.zip b.Present, pr.1 = true → pr.2 = true := by
      intro pr hpr h1
      rcases Bool.eq_false_or_eq_true pr.2 with h2 | h2
      · exact h2
      · exact absurd h2 (hno pr hpr h1)
    rw [Reduce_eq b present hn hle hgood] at herr
    exact Except.noConfusion herr
  · by_contra hno
    push_neg at hno
    have hgood : ∀ pr ∈ present.zip b.Present, pr.2 = true → pr.1 = true := by
      intro pr hpr h2
      rcases Bool.eq_false_or_eq_true pr.1 with h1 | h1
      · exact h1
      · exact absurd h1 (hno pr hpr h2)
    rw [Expand_eq b present hn hle hgood] at herr
    exact Except.noConfusion herr

/-- C4 witness: at `Present=[true,false]`, `Packed=[7]`, the mask
`[false,true]` makes Reduce panic and Expand panic, while `[true,true]`
is superset-legal for Expand and `[false,false]` is subset-legal for
Reduce. -/
theorem c4_abort_conditions_witness :
    (0 < (Batch.mk [7] [true, false]).NumPresent)
    ∧ ((Batch.mk [7] [true, false]).Reduce [false, true]
          = .error (.panicked "cannot re-add sequences")
        ↔ ∃ pr ∈ [false, true].zip [true, false], pr.1 = true ∧ pr.2 = false)
    ∧ ((∀ pr ∈ [false, true].zip [true, false], pr.1 = true → pr.2 = true)
        → ∃ r, (Batch.mk [7] [true, false]).Reduce [false, true] = .ok r)
    ∧ ((Batch.mk [7] [true, false]).Expand [false, true]
          = .error (.panicked "argument to Expand must be a superset")
        ↔ ∃ pr ∈ [false, true].zip [true, false], pr.2 = true ∧ pr.1 = false)
    ∧ ((∀ pr ∈ [false, true].zip [true, false], pr.2 = true → pr.1 = true)
        → ∃ r, (Batch.mk [7] [true, false]).Expand [false, true] = .ok r) :=
  ⟨by decide, c4_abort_conditions ⟨[7], [true, false]⟩ [false, true] (by decide) (by decide)⟩

/-- C5: under the Batch invariant and the respective mask precondition,
both `Batch.Reduce` and `Batch.Expand` return a batch whose packed length
is the derived per-sequence width times the number of slots the new mask
keeps, and whose mask is the new mask — so both preserve the invariant. -/
theorem c5_length_invariant (b : Batch) (present : List Bool)
    (hn : 0 < b.NumPresent)
    (hInv : b.Packed.length = b.Packed.length / b.NumPresent * b.NumPresent)
    (hlen : present.length = b.Present.length) :
    ((∀ pr ∈ present.zip b.Present, pr.1 = true → pr.2 = true) →
      ∃ r, b.Reduce present = .ok r
        ∧ r.Packed.length = b.Packed.length / b.NumPresent * present.count true
        ∧ r.Present = present)
    ∧ ((∀ pr ∈ present.zip b.Present, pr.2 = true → pr.1 = true) →
      ∃ r, b.Expand present = .ok r
        ∧ r.Packed.length = b.Packed.length / b.NumPresent * present.count true
        ∧ r.Present = present) := by
  have hle : present.length ≤ b.Present.length := le_of_eq hlen
  have hq2 : (present.zip b.Present).countP (fun pr => pr.2) = b.NumPresent :=
    countP_snd_zip present b.Present (le_of_eq hlen.symm)
  have hq1 : (present.zip b.Present).countP (fun pr => pr.1) = present.count true :=
    countP_fst_zip present b.Present hle
  have hwb : (b.Packed.length / b.NumPresent) * (present.zip b.Present).countP (fun pr => pr.2)
      ≤ b.Packed.length := by
    rw [hq2]; exact Nat.div_mul_le_self _ _
  constructor
  · intro hsub
    refine ⟨_, Reduce_eq b present hn hle hsub, ?_, rfl⟩
    rw [show (Batch.mk (reduceC (b.Packed.length / b.NumPresent) (present.zip b.Present)
      b.Packed) present).Packed
        = reduceC (b.Packed.length / b.NumPresent) (present.zip b.Present) b.Packed from rfl]
    rw [reduceC_length _ _ _ hsub hwb, hq1]
  · intro hsup
    refine ⟨_, Expand_eq b present hn hle hsup, ?_, rfl⟩
    rw [show (Batch.mk (expandC (b.Packed.length / b.NumPresent) (present.zip b.Present)
      b.Packed) present).Packed
        = expandC (b.Packed.length / b.NumPresent) (present.zip b.Present) b.Packed from rfl]
    rw [expandC_length _ _ _ hsup hwb, hq1]

/-- C5 witness: width-2 batch `Packed=[1,2,3,4]`, `Present=[true,false,true]`
with sub-mask `[true,false,false]` for Reduce (also superset-checked for
Expand is not needed: `[true,false,true]` itself is used as the mask). -/
theorem c5_length_invariant_witness :
    (0 < (Batch.mk [1, 2, 3, 4] [true, false, true]).NumPresent)
    ∧ ((∀ pr ∈ [true, false, true].zip [true, false, true], pr.1 = true → pr.2 = true) →
        ∃ r, (Batch.mk [1, 2, 3, 4] [true, false, true]).Reduce [true, false, true] = .ok r
          ∧ r.Packed.length = 4 / (Batch.mk [1, 2, 3, 4] [true, false, true]).NumPresent
              * List.count true [true, false, true]
          ∧ r.Present = [true, false, true]) :=
  ⟨by decide,
    fun hsub => ((c5_length_invariant ⟨[1, 2, 3, 4], [true, false, true]⟩ [true, false, true]
      (by decide) (by decide) (by decide)).1 hsub)⟩

/-- C9: for a batch satisfying the invariant with at least one present
slot and an equal-length mask satisfying the respective precondition,
`Batch.Reduce` and `Batch.Expand` run to completion and return a batch:
every internal index and slice access stays in bounds (out-of-range
accesses are `.error` outcomes in this model, and none occurs). -/
theorem c9_no_out_of_range (b : Batch) (present : List Bool)
    (hn : 0 < b.NumPresent)
    (hInv : b.Packed.length = b.Packed.length / b.NumPresent * b.NumPresent)
    (hlen : present.length = b.Present.length) :
    ((∀ pr ∈ present.zip b.Present, pr.1 = true → pr.2 = true)
        → ∃ r, b.Reduce present = .ok r)
    ∧ ((∀ pr ∈ present.zip b.Present, pr.2 = true → pr.1 = true)
        → ∃ r, b.Expand present = .ok r) := by
  have hle : present.length ≤ b.Present.length := le_of_eq hlen
  exact ⟨fun hsub => ⟨_, Reduce_eq b present hn hle hsub⟩,
    fun hsup => ⟨_, Expand_eq b present hn hle hsup⟩⟩

/-- C9 witness: the width-2 example batch with a legal sub-mask and a
legal super-mask. -/
theorem c9_no_out_of_range_witness :
    (0 < (Batch.mk [1, 2, 3, 4] [true, false, true]).NumPresent)
    ∧ ((∀ pr ∈ [false, false, true].zip [true, false, true], pr.1 = true → pr.2 = true)
        → ∃ r, (Batch.mk [1, 2, 3, 4] [true, false, true]).Reduce [false, false, true] = .ok r)
    ∧ ((∀ pr ∈ [true, true, true].zip [true, false, true], pr.2 = true → pr.1 = true)
        → ∃ r, (Batch.mk [1, 2, 3, 4] [true, false, true]).Expand [true, true, true] = .ok r) :=
  ⟨by decide,
    fun hsub => (c9_no_out_of_range ⟨[1, 2, 3, 4], [true, false, true]⟩ [false, false, true]
      (by decide) (by decide) (by decide)).1 hsub,
    fun hsup => (c9_no_out_of_range ⟨[1, 2, 3, 4], [true, false, true]⟩ [true, true, true]
      (by decide) (by decide) (by decide)).2 hsup⟩

/-- C6: in the result of `Expand(b, present)` for a super-mask `present`,
the `inc`-wide chunk at the output position of each target-present slot
is the corresponding chunk of `b.Packed` when the slot was present in
`b`, and all zeros when the slot is newly introduced. -/
theorem c6_expand_zero_fill (b : Batch) (present : List Bool)
    (hn : 0 < b.NumPresent)
    (hInv : b.Packed.length = b.Packed.length / b.NumPresent * b.NumPresent)
    (hlen : present.length = b.Present.length)
    (hsup : ∀ pr ∈ present.zip b.Present, pr.2 = true → pr.1 = true) :
    ∃ e, b.Expand present = .ok e ∧
      ∀ i, i < present.length → present.getD i false = true →
        seg e.Packed ((b.Packed.length / b.NumPresent) * ((present.take i).count true))
            (b.Packed.length / b.NumPresent)
          = if b.Present.getD i false = true
            then seg b.Packed
                ((b.Packed.length / b.NumPresent) * ((b.Present.take i).count true))
                (b.Packed.length / b.NumPresent)
            else List.replicate (b.Packed.length / b.NumPresent) 0 := by
  have hle : present.length ≤ b.Present.length := le_of_eq hlen
  refine ⟨_, Expand_eq b present hn hle hsup, ?_⟩
  intro i hi hp
  have hib : i < b.Present.length := by omega
  have hq2 : (present.zip b.Present).countP (fun pr => pr.2) = b.NumPresent :=
    countP_snd_zip present b.Present (le_of_eq hlen.symm)
  have hw : b.Packed.length
      = b.Packed.length / b.NumPresent * (present.zip b.Present).countP (fun pr => pr.2) := by
    rw [hq2]; exact hInv
  have hiq : i < (present.zip b.Present).length := by
    rw [List.length_zip]; omega
  have hgetD := zip_getD present b.Present hi hib
  have hchunk := expandC_chunk (b.Packed.length / b.NumPresent) (present.zip b.Present)
    b.Packed hsup hw i hiq (by rw [hgetD]; exact hp)
  have htk := zip_take present b.Present i
  have hcf : ((present.take i).zip (b.Present.take i)).countP (fun pr => pr.1)
      = (present.take i).count true := by
    refine countP_fst_zip _ _ ?_
    simp only [List.length_take]
    omega
  have hcs : ((present.take i).zip (b.Present.take i)).countP (fun pr => pr.2)
      = (b.Present.take i).count true := by
    refine countP_snd_zip _ _ ?_
    simp only [List.length_take]
    omega
  rw [htk, hcf, hcs, hgetD] at hchunk
  exact hchunk

/-- C6 witness: the spec example: `Reduce([true,false,false])` of
`Packed=[1,2,3,4], Present=[true,false,true]` yields `[1,2]`, and
`Expand` of that result back to `[true,false,true]` yields `[1,2,0,0]`,
with the newly present chunk all-zero. -/
theorem c6_expand_zero_fill_witness :
    (Batch.mk [1, 2, 3, 4] [true, false, true]).Reduce [true, false, false]
        = .ok (Batch.mk [1, 2] [true, false, false])
    ∧ (Batch.mk [1, 2] [true, false, false]).Expand [true, false, true]
        = .ok (Batch.mk [1, 2, 0, 0] [true, false, true])
    ∧ ∃ e, (Batch.mk [1, 2] [true, false, false]).Expand [true, false, true] = .ok e ∧
        ∀ i, i < [true, false, true].length → [true, false, true].getD i false = true →
          seg e.Packed ((2 / (Batch.mk [1, 2] [true, false, false]).NumPresent)
              * (([true, false, true].take i).count true))
              (2 / (Batch.mk [1, 2] [true, false, false]).NumPresent)
            = if [true, false, false].getD i false = true
              then seg [1, 2]
                  ((2 / (Batch.mk [1, 2] [true, false, false]).NumPresent)
                    * (([true, false, false].take i).count true))
                  (2 / (Batch.mk [1, 2] [true, false, false]).NumPresent)
              else List.replicate (2 / (Batch.mk [1, 2] [true, false, false]).NumPresent) 0 :=
  ⟨rfl, rfl,
    c6_expand_zero_fill ⟨[1, 2], [true, false, false]⟩ [true, false, true]
      (by decide) (by decide) (by decide) (by decide)⟩

/-- Spec-side description of the intersected per-timestep mask of the
sequence-level `Reduce`: `p[i] = present[i] AND xPres[i]`. -/
def pmask (present xPres : List Bool) : List Bool :=
  List.zipWith (· && ·) present xPres

/-- The mask-intersection loop computes `pmask` whenever the target mask
is no longer than the timestep's mask. -/
theorem intersectMask_eq (xPres : List Bool) :
    ∀ (ms : List Bool) (i : Nat), i + ms.length ≤ xPres.length →
      intersectMask xPres ms i = .ok (List.zipWith (· && ·) ms (xPres.drop i)) := by
  intro ms
  induction ms with
  | nil => intro i _; simp [intersectMask]
  | cons p rest ih =>
    intro i hlen
    have hi : i < xPres.length := by
      simp only [List.length_cons] at hlen; omega
    have hget : xPres.get? i = some xPres[i] := by
      rw [List.get?_eq_getElem?, List.getElem?_eq_getElem hi]
    have hdrop : xPres.drop i = xPres[i] :: xPres.drop (i + 1) := List.drop_eq_getElem_cons hi
    have hrec := ih (i + 1) (by simp only [List.length_cons] at hlen; omega)
    rw [hdrop]
    cases p with
    | true =>
      simp only [intersectMask, hget, hrec, List.zipWith_cons_cons]
      simp
    | false =>
      simp only [intersectMask, hrec, List.zipWith_cons_cons]
      simp

/-- Entries of the intersected mask only keep slots that the timestep's
own mask holds. -/
theorem zipWith_and_sub (a : List Bool) :
    ∀ bs : List Bool, ∀ pr ∈ (List.zipWith (· && ·) a bs).zip bs, pr.1 = true → pr.2 = true := by
  induction a with
  | nil => intro bs pr hpr; simp at hpr
  | cons x a ih =>
    intro bs pr hpr
    cases bs with
    | nil => simp at hpr
    | cons b bs =>
      simp only [List.zipWith_cons_cons, List.zip_cons_cons, List.mem_cons] at hpr
      rcases hpr with h | h
      · subst h
        intro h1
        simp only [Bool.and_eq_true] at h1
        exact h1.2
      · exact ih bs pr h

theorem count_eq_zero_iff_all (p : List Bool) :
    p.count true = 0 ↔ p.all (fun c => !c) = true := by
  rw [List.count_eq_zero, List.all_eq_true]
  constructor
  · intro h c hc
    cases hcv : c with
    | false => simp
    | true => exact absurd (hcv ▸ hc) h
  · intro h hmem
    have := h true hmem
    simp at this

/-- C3 (amended): for a sequence whose every timestep batch has at least
one present slot and masks of the target mask's length, the
sequence-level `Reduce` succeeds; the output ends immediately before the
first timestep whose intersected mask `pmask` has no true entries (its
length is the `findIdx` of the all-false test, which is the timestep
count when no intersected mask goes empty), and entry `t` is
`Batch.Reduce` of timestep `t` at `pmask`. -/
theorem c3_seq_reduce_truncation (inOut : List Batch) (present : List Bool)
    (hpos : ∀ x ∈ inOut, 0 < x.NumPresent)
    (hlen : ∀ x ∈ inOut, present.length = x.Present.length) :
    ∃ L, Reduce inOut present = .ok L
      ∧ L.length = inOut.findIdx (fun x => (pmask present x.Present).all (fun c => !c))
      ∧ ∀ t, t < L.length →
          Batch.Reduce (inOut.getD t default) (pmask present (inOut.getD t default).Present)
            = .ok (L.getD t default) := by
  induction inOut with
  | nil =>
    exact ⟨[], rfl, by simp, fun t ht => absurd ht (by simp)⟩
  | cons x rest ih =>
    have hpx : 0 < x.NumPresent := hpos x (List.mem_cons_self _ _)
    have hlx : present.length = x.Present.length := hlen x (List.mem_cons_self _ _)
    have him : intersectMask x.Present present 0 = .ok (pmask present x.Present) := by
      have h0 := intersectMask_eq x.Present present 0 (by omega)
      simpa [pmask] using h0
    have hplen : (pmask present x.Present).length = present.length := by
      rw [pmask, List.length_zipWith]
      exact Nat.min_eq_left (le_of_eq hlx)
    have hsubp : ∀ pr ∈ (pmask present x.Present).zip x.Present, pr.1 = true → pr.2 = true :=
      zipWith_and_sub present x.Present
    have hred := Reduce_eq x (pmask present x.Present) hpx
      (le_of_eq (hplen.trans hlx)) hsubp
    by_cases hempty : (pmask present x.Present).count true = 0
    · have hall : ((pmask present x.Present).all fun c => !c) = true :=
        (count_eq_zero_iff_all _).mp hempty
      refine ⟨[], ?_, ?_, fun t ht => absurd ht (by simp)⟩
      · simp only [Reduce, him, hred]
        have hz : (Batch.mk (reduceC (x.Packed.length / x.NumPresent)
            ((pmask present x.Present).zip x.Present) x.Packed)
            (pmask present x.Present)).NumPresent = 0 := hempty
        simp [hz]
      · rw [List.findIdx_cons]
        simp [hall]
    · obtain ⟨L, hL, hLlen, hLent⟩ := ih (fun y hy => hpos y (List.mem_cons_of_mem _ hy))
        (fun y hy => hlen y (List.mem_cons_of_mem _ hy))
      have hfal : ((pmask present x.Present).all fun c => !c) = false := by
        rw [← Bool.not_eq_true]
        intro hall
        exact hempty ((count_eq_zero_iff_all _).mpr hall)
      refine ⟨Batch.mk (reduceC (x.Packed.length / x.NumPresent)
          ((pmask present x.Present).zip x.Present) x.Packed)
          (pmask present x.Present) :: L, ?_, ?_, ?_⟩
      · simp only [Reduce, him, hred, hL]
        have hz : ¬ (Batch.mk (reduceC (x.Packed.length / x.NumPresent)
            ((pmask present x.Present).zip x.Present) x.Packed)
            (pmask present x.Present)).NumPresent = 0 := hempty
        simp [hz]
      · rw [List.findIdx_cons, hfal]
        simp [hLlen]
      · intro t ht
        cases t with
        | zero => simpa using hred
        | succ j =>
          simp only [List.getD_cons_succ]
          simp only [List.length_cons] at ht
          exact hLent j (by omega)

/-- C3 counterexample: on the spec's example sequence with per-timestep
masks {A,B},{A},{} and target mask selecting both A and B, the code does
not produce 2 output timesteps: reducing the third (fully-empty) batch
divides by zero, so no output list is produced at all. -/
theorem c3_counterexample :
    Reduce [Batch.mk [1, 2] [true, true], Batch.mk [3] [true, false],
        Batch.mk [] [false, false]] [true, true]
      = .error .divisionByZero
    ∧ ¬ ∃ L, Reduce [Batch.mk [1, 2] [true, true], Batch.mk [3] [true, false],
        Batch.mk [] [false, false]] [true, true] = .ok L := by
  constructor
  · rfl
  · rintro ⟨L, hL⟩
    rw [show Reduce [Batch.mk [1, 2] [true, true], Batch.mk [3] [true, false],
        Batch.mk [] [false, false]] [true, true] = .error .divisionByZero from rfl] at hL
    exact Except.noConfusion hL

/-- C3 witness: per-timestep masks {A,B},{B},{A} with target mask {B}:
every batch is nonempty, the third intersected mask is empty, and exactly
2 output timesteps are produced. -/
theorem c3_seq_reduce_truncation_witness :
    (∀ x ∈ [Batch.mk [1, 2] [true, true], Batch.mk [3] [false, true],
        Batch.mk [4] [true, false]], 0 < x.NumPresent)
    ∧ (∀ x ∈ [Batch.mk [1, 2] [true, true], Batch.mk [3] [false, true],
        Batch.mk [4] [true, false]], ([false, true] : List Bool).length = x.Present.length)
    ∧ ∃ L, Reduce [Batch.mk [1, 2] [true, true], Batch.mk [3] [false, true],
          Batch.mk [4] [true, false]] [false, true] = .ok L
        ∧ L.length = ([Batch.mk [1, 2] [true, true], Batch.mk [3] [false, true],
            Batch.mk [4] [true, false]]).findIdx
              (fun x => (pmask [false, true] x.Present).all (fun c => !c))
        ∧ ∀ t, t < L.length →
            Batch.Reduce (([Batch.mk [1, 2] [true, true], Batch.mk [3] [false, true],
                Batch.mk [4] [true, false]]).getD t default)
              (pmask [false, true]
                (([Batch.mk [1, 2] [true, true], Batch.mk [3] [false, true],
                  Batch.mk [4] [true, false]]).getD t default).Present)
              = .ok (L.getD t default) :=
  ⟨by decide, by decide,
    c3_seq_reduce_truncation
      [Batch.mk [1, 2] [true, true], Batch.mk [3] [false, true], Batch.mk [4] [true, false]]
      [false, true] (by decide) (by decide)⟩

/-- The expansion loop of `reduceRes.Propagate` succeeds entrywise when
each upstream batch's expansion succeeds, returning the expanded list. -/
theorem expandEach_ok (inOut : List Batch) :
    ∀ (u : List Batch) (i : Nat),
      i + u.length ≤ inOut.length →
      (∀ t, t < u.length →
        ∃ v, (u.getD t default).Expand ((inOut.getD (i + t) default).Present) = .ok v) →
      ∃ L, expandEach inOut u i = .ok L ∧ L.length = u.length ∧
        ∀ t, t < u.length →
          (u.getD t default).Expand ((inOut.getD (i + t) default).Present)
            = .ok (L.getD t default) := by
  intro u
  induction u with
  | nil =>
    intro i _ _
    exact ⟨[], rfl, rfl, fun t ht => absurd ht (by simp)⟩
  | cons x rest ih =>
    intro i hlen hok
    have hi : i < inOut.length := by
      simp only [List.length_cons] at hlen; omega
    have hget : inOut.get? i = some inOut[i] := by
      rw [List.get?_eq_getElem?, List.getElem?_eq_getElem hi]
    have hD : inOut.getD (i + 0) default = inOut[i] := by
      rw [Nat.add_zero, List.getD_eq_getElem _ _ hi]
    obtain ⟨v, hv⟩ := hok 0 (by simp)
    have hv' : x.Expand (inOut[i].Present) = .ok v := by
      rw [hD] at hv
      simpa using hv
    obtain ⟨L, hL, hLlen, hLent⟩ := ih (i + 1)
      (by simp only [List.length_cons] at hlen; omega)
      (fun t ht => by
        obtain ⟨w, hw⟩ := hok (t + 1) (by simp only [List.length_cons]; omega)
        refine ⟨w, ?_⟩
        rw [show i + 1 + t = i + (t + 1) by omega]
        simpa using hw)
    refine ⟨v :: L, ?_, by simp [hLlen], ?_⟩
    · simp only [expandEach, hget, hv', hL]
    · intro t ht
      cases t with
      | zero =>
        rw [hD]
        simpa using hv'
      | succ j =>
        simp only [List.getD_cons_succ]
        simp only [List.length_cons] at ht
        have := hLent j (by omega)
        rw [show i + 1 + j = i + (j + 1) by omega] at this
        exact this

theorem getD_drop_map_zero (inOut : List Batch) (k t : Nat) (h1 : k ≤ t)
    (h2 : t < inOut.length) :
    ((inOut.drop k).map zeroBatchLike).getD (t - k) default
      = zeroBatchLike (inOut.getD t default) := by
  have hlt : t - k < (inOut.drop k).length := by rw [List.length_drop]; omega
  rw [List.getD_eq_getElem _ _ (by rw [List.length_map]; exact hlt),
    List.getElem_map, List.getElem_drop, List.getD_eq_getElem _ _ h2]
  have hidx : k + (t - k) = t := by omega
  simp [hidx]

/-- C2: when `Propagate` of a sequence Reduce node receives one upstream
gradient batch per emitted timestep, each matching that timestep's
output shape, the list it delegates to the input sequence's `Propagate`
has one entry per input timestep: entry `t < len(u)` is
`Expand(u[t], inOut[t].Present)` and every later entry is the all-zero
batch shaped like the input's output at that timestep. -/
theorem c2_propagate_delegates (inOut u : List Batch)
    (hlen : u.length ≤ inOut.length)
    (hshape : ∀ t, t < u.length →
      0 < (u.getD t default).NumPresent
      ∧ (u.getD t default).Present.length = (inOut.getD t default).Present.length
      ∧ (∀ pr ∈ (u.getD t default).Present.zip (inOut.getD t default).Present,
          pr.1 = true → pr.2 = true)) :
    ∃ newU, reducePropagateArg inOut u = .ok newU
      ∧ newU.length = inOut.length
      ∧ (∀ t, t < u.length →
          (u.getD t default).Expand ((inOut.getD t default).Present)
            = .ok (newU.getD t default))
      ∧ (∀ t, u.length ≤ t → t < inOut.length →
          newU.getD t default = zeroBatchLike (inOut.getD t default)) := by
  have hok : ∀ t, t < u.length →
      ∃ v, (u.getD t default).Expand ((inOut.getD (0 + t) default).Present) = .ok v := by
    intro t ht
    obtain ⟨h1, h2, h3⟩ := hshape t ht
    rw [Nat.zero_add]
    refine ⟨_, Expand_eq _ _ h1 (le_of_eq h2.symm) ?_⟩
    intro pr hpr hp2
    exact h3 (pr.2, pr.1) (mem_zip_swap hpr) hp2
  obtain ⟨L, hL, hLlen, hLent⟩ := expandEach_ok inOut u 0 (by omega) hok
  refine ⟨L ++ (inOut.drop u.length).map zeroBatchLike, ?_, ?_, ?_, ?_⟩
  · simp only [reducePropagateArg, hL]
  · simp only [List.length_append, hLlen, List.length_map, List.length_drop]
    omega
  · intro t ht
    rw [List.getD_append _ _ _ _ (by rw [hLlen]; exact ht)]
    have := hLent t ht
    rw [Nat.zero_add] at this
    exact this
  · intro t h1 h2
    rw [List.getD_append_right _ _ _ _ (by rw [hLlen]; exact h1), hLlen]
    exact getD_drop_map_zero inOut u.length t h1 h2

/-- C2 witness: a two-timestep input with one emitted timestep; the
delegated list expands the single upstream batch and zero-fills the
dropped second timestep. -/
theorem c2_propagate_delegates_witness :
    ((1 : Nat) ≤ 2)
    ∧ (∀ t, t < ([Batch.mk [5] [true, false]] : List Batch).length →
        0 < (([Batch.mk [5] [true, false]] : List Batch).getD t default).NumPresent
        ∧ (([Batch.mk [5] [true, false]] : List Batch).getD t default).Present.length
            = (([Batch.mk [1, 2] [true, true], Batch.mk [3] [true, false]] :
                List Batch).getD t default).Present.length
        ∧ (∀ pr ∈ (([Batch.mk [5] [true, false]] : List Batch).getD t default).Present.zip
              (([Batch.mk [1, 2] [true, true], Batch.mk [3] [true, false]] :
                List Batch).getD t default).Present,
            pr.1 = true → pr.2 = true))
    ∧ ∃ newU, reducePropagateArg
          [Batch.mk [1, 2] [true, true], Batch.mk [3] [true, false]]
          [Batch.mk [5] [true, false]] = .ok newU
        ∧ newU.length = 2
        ∧ (∀ t, t < ([Batch.mk [5] [true, false]] : List Batch).length →
            (([Batch.mk [5] [true, false]] : List Batch).getD t default).Expand
                ((([Batch.mk [1, 2] [true, true], Batch.mk [3] [true, false]] :
                  List Batch).getD t default).Present)
              = .ok (newU.getD t default))
        ∧ (∀ t, ([Batch.mk [5] [true, false]] : List Batch).length ≤ t → t < 2 →
            newU.getD t default
              = zeroBatchLike (([Batch.mk [1, 2] [true, true],
                  Batch.mk [3] [true, false]] : List Batch).getD t default)) :=
  ⟨by decide, by decide,
    c2_propagate_delegates [Batch.mk [1, 2] [true, true], Batch.mk [3] [true, false]]
      [Batch.mk [5] [true, false]] (by decide) (by decide)⟩

/-- The mask-selection loop of `Prune` computes exactly the spec-side
selection whenever the first timestep's mask is no longer than the
current one. -/
theorem pruneMask_eq (cur : List Bool) :
    ∀ (ms : List Bool) (j : Nat), j + ms.length ≤ cur.length →
      pruneMask cur ms j
        = .ok ((ms.zip (cur.drop j)).filterMap fun pr => if pr.1 = true then some pr.2 else none) := by
  intro ms
  induction ms with
  | nil => intro j _; simp [pruneMask]
  | cons keep rest ih =>
    intro j hlen
    have hj : j < cur.length := by
      simp only [List.length_cons] at hlen; omega
    have hget : cur.get? j = some cur[j] := by
      rw [List.get?_eq_getElem?, List.getElem?_eq_getElem hj]
    have hdrop : cur.drop j = cur[j] :: cur.drop (j + 1) := List.drop_eq_getElem_cons hj
    have hrec := ih (j + 1) (by simp only [List.length_cons] at hlen; omega)
    rw [hdrop]
    cases keep with
    | true =>
      simp only [pruneMask, hget, hrec, List.zip_cons_cons, List.filterMap_cons]
      simp
    | false =>
      simp only [pruneMask, hrec, List.zip_cons_cons, List.filterMap_cons]
      simp

/-- The outer loop of `Prune` succeeds and rewrites each mask to the
spec-side selection, reusing each packed vector. -/
theorem pruneEach_ok (first : List Bool) :
    ∀ (xs : List Batch),
      (∀ x ∈ xs, first.length ≤ x.Present.length) →
      ∃ L, pruneEach first xs = .ok L ∧ L.length = xs.length ∧
        ∀ t, t < xs.length →
          (L.getD t default).Packed = (xs.getD t default).Packed
          ∧ (L.getD t default).Present = pruneMaskSpec first (xs.getD t default).Present := by
  intro xs
  induction xs with
  | nil =>
    intro _
    exact ⟨[], rfl, rfl, fun t ht => absurd ht (by simp)⟩
  | cons x rest ih =>
    intro hlen
    have hm : pruneMask x.Present first 0 = .ok (pruneMaskSpec first x.Present) := by
      have h0 := pruneMask_eq x.Present first 0
        (by simpa using hlen x (List.mem_cons_self _ _))
      simpa [pruneMaskSpec] using h0
    obtain ⟨L, hL, hLlen, hent⟩ := ih (fun y hy => hlen y (List.mem_cons_of_mem _ hy))
    refine ⟨⟨x.Packed, pruneMaskSpec first x.Present⟩ :: L, ?_, by simp [hLlen], ?_⟩
    · simp only [pruneEach, hm, hL]
    · intro t ht
      cases t with
      | zero => exact ⟨rfl, rfl⟩
      | succ j =>
        simp only [List.getD_cons_succ]
        simp only [List.length_cons] at ht
        exact hent j (by omega)

/-- C7: `Prune` of a zero-timestep sequence returns it unchanged;
otherwise every output timestep keeps its original packed vector
unmodified and its mask becomes the values of its own mask at exactly
the slots where the first timestep's mask is true, in slot order. -/
theorem c7_prune_masks (sOut : List Batch)
    (hlen : ∀ x ∈ sOut, (sOut.headD default).Present.length ≤ x.Present.length) :
    ∃ L, Prune sOut = .ok L ∧ L.length = sOut.length
      ∧ (sOut = [] → L = sOut)
      ∧ ∀ t, t < sOut.length →
          (L.getD t default).Packed = (sOut.getD t default).Packed
          ∧ (L.getD t default).Present
              = pruneMaskSpec (sOut.headD default).Present (sOut.getD t default).Present := by
  cases sOut with
  | nil => exact ⟨[], rfl, rfl, fun _ => rfl, fun t ht => absurd ht (by simp)⟩
  | cons x0 rest =>
    have hlen' : ∀ x ∈ x0 :: rest, x0.Present.length ≤ x.Present.length := by
      simpa using hlen
    obtain ⟨L, hL, hLlen, hent⟩ := pruneEach_ok x0.Present (x0 :: rest) hlen'
    refine ⟨L, hL, hLlen, fun h => absurd h (by simp), ?_⟩
    simpa using hent

/-- C7 witness: a two-timestep sequence whose middle slot is dead at
timestep 0. -/
theorem c7_prune_masks_witness :
    (∀ x ∈ [Batch.mk [1, 2] [true, false, true], Batch.mk [3] [true, false, false]],
      (([Batch.mk [1, 2] [true, false, true], Batch.mk [3] [true, false, false]] :
        List Batch).headD default).Present.length ≤ x.Present.length)
    ∧ ∃ L, Prune [Batch.mk [1, 2] [true, false, true],
          Batch.mk [3] [true, false, false]] = .ok L
        ∧ L.length = ([Batch.mk [1, 2] [true, false, true],
            Batch.mk [3] [true, false, false]] : List Batch).length
        ∧ (([Batch.mk [1, 2] [true, false, true], Batch.mk [3] [true, false, false]] :
            List Batch) = []
              → L = [Batch.mk [1, 2] [true, false, true], Batch.mk [3] [true, false, false]])
        ∧ ∀ t, t < ([Batch.mk [1, 2] [true, false, true],
            Batch.mk [3] [true, false, false]] : List Batch).length →
            (L.getD t default).Packed
                = (([Batch.mk [1, 2] [true, false, true],
                    Batch.mk [3] [true, false, false]] : List Batch).getD t default).Packed
            ∧ (L.getD t default).Present
                = pruneMaskSpec (([Batch.mk [1, 2] [true, false, true],
                      Batch.mk [3] [true, false, false]] : List Batch).headD default).Present
                    ((([Batch.mk [1, 2] [true, false, true],
                      Batch.mk [3] [true, false, false]] : List Batch).getD t default).Present) :=
  ⟨by decide,
    c7_prune_masks [Batch.mk [1, 2] [true, false, true], Batch.mk [3] [true, false, false]]
      (by decide)⟩

theorem pruneMaskSpec_all_true (first : List Bool) :
    ∀ cur : List Bool, (∀ c ∈ first, c = true) → first.length = cur.length →
      pruneMaskSpec first cur = cur := by
  induction first with
  | nil =>
    intro cur _ hlen
    have hc : cur = [] := List.length_eq_zero.mp (by simpa using hlen.symm)
    simp [hc, pruneMaskSpec]
  | cons f first ih =>
    intro cur hall hlen
    cases cur with
    | nil => simp at hlen
    | cons c cur =>
      have hf : f = true := hall f (List.mem_cons_self _ _)
      subst hf
      have hrec := ih cur (fun d hd => hall d (List.mem_cons_of_mem _ hd)) (by simpa using hlen)
      simp only [pruneMaskSpec] at hrec
      simp [pruneMaskSpec, List.zip_cons_cons, List.filterMap_cons, hrec]

/-- C8: pruning a nonempty sequence in which every slot is present at the
first timestep (an already-pruned sequence, with equal-length masks)
leaves every timestep's mask unchanged. -/
theorem c8_prune_idempotent (sOut : List Batch)
    (hne : sOut ≠ [])
    (hall : ∀ c ∈ (sOut.headD default).Present, c = true)
    (hlen : ∀ x ∈ sOut, x.Present.length = (sOut.headD default).Present.length) :
    ∃ L, Prune sOut = .ok L ∧ L.length = sOut.length
      ∧ ∀ t, t < sOut.length →
          (L.getD t default).Present = (sOut.getD t default).Present := by
  cases sOut with
  | nil => exact absurd rfl hne
  | cons x0 rest =>
    have hlen' : ∀ x ∈ x0 :: rest, x0.Present.length ≤ x.Present.length := by
      intro x hx
      have := hlen x hx
      simp only [List.headD_cons] at this
      omega
    obtain ⟨L, hL, hLlen, hent⟩ := pruneEach_ok x0.Present (x0 :: rest) hlen'
    refine ⟨L, hL, hLlen, ?_⟩
    intro t ht
    have hmask := (hent t ht).2
    rw [hmask]
    refine pruneMaskSpec_all_true x0.Present _ (by simpa using hall) ?_
    have hx : ((x0 :: rest).getD t default) ∈ x0 :: rest := by
      rw [List.getD_eq_getElem _ _ ht]
      exact List.getElem_mem ht
    have := hlen _ hx
    simp only [List.headD_cons] at this
    omega

/-- C8 witness: a two-timestep sequence with both slots present at
timestep 0; the second timestep's mask `[false,true]` is unchanged. -/
theorem c8_prune_idempotent_witness :
    (([Batch.mk [1, 2] [true, true], Batch.mk [3] [false, true]] : List Batch) ≠ [])
    ∧ (∀ c ∈ (([Batch.mk [1, 2] [true, true], Batch.mk [3] [false, true]] :
        List Batch).headD default).Present, c = true)
    ∧ ∃ L, Prune [Batch.mk [1, 2] [true, true], Batch.mk [3] [false, true]] = .ok L
        ∧ L.length = ([Batch.mk [1, 2] [true, true], Batch.mk [3] [false, true]] :
            List Batch).length
        ∧ ∀ t, t < ([Batch.mk [1, 2] [true, true], Batch.mk [3] [false, true]] :
            List Batch).length →
            (L.getD t default).Present
              = (([Batch.mk [1, 2] [true, true], Batch.mk [3] [false, true]] :
                  List Batch).getD t default).Present :=
  ⟨by decide, by decide,
    c8_prune_idempotent [Batch.mk [1, 2] [true, true], Batch.mk [3] [false, true]]
      (by decide) (by decide) (by decide)⟩

end Anyseq
